import Mathlib

/-!
Verification development for the prx-memory governed memory service.

The definitions below are a shallow embedding of the Rust sources:

* `crates/prx-memory-storage/src/lib.rs` — the in-memory/persistent storage
  backend and the hybrid recall engine (`recall_entries`, `tokenize`,
  `approx_doc_len`, `term_frequency`, `apply_recency_boost`,
  `apply_importance_weight`, `apply_length_norm`, `signature`).
* `crates/prx-memory-mcp/src/server.rs` — importance resolution
  (`resolve_importance`), governance validation (`validate_governed_input`),
  the write pipeline (`store_layer_with_rules`, `decision_ratio_in_scope`,
  `compact_query`, `run_periodic_maintenance`), the dual-layer store
  (`exec_memory_store_dual`), the session stream manager
  (`cleanup_expired_sessions_locked`, `renew_session_lease`,
  `append_session_event`, `collect_session_events`), the embedding runtime
  cache (`cache_get`, `cache_put`, `bump_lru`) and error redaction
  (`sanitize_sensitive`, `redact_query_param`).

Modelling conventions: Rust `f32`/`f64` arithmetic is embedded as exact
rational arithmetic over `ℚ`; all the constants involved are small decimal
literals, and the comparisons proved or refuted here are far from the
rounding granularity of `f32`.  `u64`/`usize` become `ℕ` (the code uses
saturating arithmetic at the places where overflow could occur, which is
mirrored with truncated subtraction).  Rust `String` text becomes either
Lean `String` or `List Char`; `str::contains`/byte length are modelled on
the character list (the repository only ever feeds ASCII examples through
these paths).  Wall-clock reads (`now_ms`) and the remote embedding call
(`embed_one`) are passed in as explicit parameters.  `HashMap` state is
modelled by association lists, and hash-based content signatures by the
hashed tuple itself.
-/

namespace PrxMemory

/-- Rust `f32::clamp(lo, hi)` on rationals (for `lo ≤ hi`). -/
def rclamp (x lo hi : ℚ) : ℚ :=
  if x < lo then lo else if x > hi then hi else x

/-- Rust `usize::clamp(lo, hi)` / `u64::clamp` on naturals (for `lo ≤ hi`). -/
def nclamp (x lo hi : ℕ) : ℕ :=
  if x < lo then lo else if x > hi then hi else x

/-!
Importance resolution, from `resolve_importance` in
`crates/prx-memory-mcp/src/server.rs` (lines 3945-3980).  An explicit level
string wins over the numeric value; a numeric value is clamped to [0, 1]
first and then snapped (within `1e-3`) to one of the four canonical values.
-/

/-- Rust `f32::abs` on rationals. -/
def rabs (x : ℚ) : ℚ :=
  if x < 0 then -x else x

/-- Embedding of `resolve_importance`. -/
def resolveImportance (level : Option String) (numeric : Option ℚ) :
    Except String (ℚ × String) :=
  match level with
  | some lv =>
    if lv = "low" then .ok (1/4, "low")
    else if lv = "medium" then .ok (1/2, "medium")
    else if lv = "high" then .ok (3/4, "high")
    else if lv = "critical" then .ok (1, "critical")
    else .error "importance_level must be low|medium|high|critical"
  | none =>
    match numeric with
    | some score =>
      let s := rclamp score 0 1
      if rabs (s - 1/4) < 1/1000 then .ok (1/4, "low")
      else if rabs (s - 1/2) < 1/1000 then .ok (1/2, "medium")
      else if rabs (s - 3/4) < 1/1000 then .ok (3/4, "high")
      else if rabs (s - 1) < 1/1000 then .ok (1, "critical")
      else .error "numeric importance must be one of 0.25/0.50/0.75/1.0; prefer importance_level"
    | none => .ok (1/2, "medium")

/-- Whether a rational lies strictly within `1e-3` of one of the four canonical
importance values `0.25 / 0.50 / 0.75 / 1.0`. -/
def nearCanonicalImportance (x : ℚ) : Prop :=
  rabs (x - 1/4) < 1/1000 ∨ rabs (x - 1/2) < 1/1000 ∨
    rabs (x - 3/4) < 1/1000 ∨ rabs (x - 1) < 1/1000

instance (x : ℚ) : Decidable (nearCanonicalImportance x) := by
  unfold nearCanonicalImportance; infer_instance

/-- C4 counterexample: the numeric importance `2.0` is not within `1e-3` of any
of `0.25 / 0.50 / 0.75 / 1.0`, yet `resolve_importance` accepts it (it is
clamped to `1.0` before the snap test), refuting "every other numeric value is
rejected with an error". -/
theorem c4_counterexample :
    resolveImportance none (some 2) = .ok (1, "critical") ∧
      ¬ nearCanonicalImportance 2 := by
  constructor
  · with_unfolding_all rfl
  · with_unfolding_all decide

/-- C4 (amended): an explicit importance_level of low/medium/high/critical maps
deterministically to 0.25/0.50/0.75/1.0 and any other level string is
rejected; a numeric importance is first clamped to [0, 1] and is accepted
exactly when the clamped value lies strictly within 1e-3 of one of
0.25/0.50/0.75/1.0 (so values above 1 or below 0 are accepted whenever their
clamp is, e.g. 2.0 resolves to critical); every other numeric value is
rejected with an error. -/
theorem c4_importance_resolution_amended :
    (∀ n, resolveImportance (some "low") n = .ok (1/4, "low")) ∧
    (∀ n, resolveImportance (some "medium") n = .ok (1/2, "medium")) ∧
    (∀ n, resolveImportance (some "high") n = .ok (3/4, "high")) ∧
    (∀ n, resolveImportance (some "critical") n = .ok (1, "critical")) ∧
    (∀ lv n, lv = "low" ∨ lv = "medium" ∨ lv = "high" ∨ lv = "critical" ∨
      (resolveImportance (some lv) n).isOk = false) ∧
    (∀ x : ℚ, (resolveImportance none (some x)).isOk = true ↔
      nearCanonicalImportance (rclamp x 0 1)) := by
  refine ⟨fun n => rfl, fun n => rfl, fun n => rfl, fun n => rfl, ?_, ?_⟩
  · intro lv n
    by_cases h1 : lv = "low"
    · exact .inl h1
    by_cases h2 : lv = "medium"
    · exact .inr (.inl h2)
    by_cases h3 : lv = "high"
    · exact .inr (.inr (.inl h3))
    by_cases h4 : lv = "critical"
    · exact .inr (.inr (.inr (.inl h4)))
    refine .inr (.inr (.inr (.inr ?_)))
    simp [resolveImportance, h1, h2, h3, h4, Except.isOk, Except.toBool]
  · intro x
    show (resolveImportance none (some x)).isOk = true ↔ _
    simp only [resolveImportance, nearCanonicalImportance]
    by_cases h1 : rabs (rclamp x 0 1 - 1/4) < 1/1000
    · rw [if_pos h1]; exact iff_of_true rfl (Or.inl h1)
    rw [if_neg h1]
    by_cases h2 : rabs (rclamp x 0 1 - 1/2) < 1/1000
    · rw [if_pos h2]; exact iff_of_true rfl (Or.inr (Or.inl h2))
    rw [if_neg h2]
    by_cases h3 : rabs (rclamp x 0 1 - 3/4) < 1/1000
    · rw [if_pos h3]; exact iff_of_true rfl (Or.inr (Or.inr (Or.inl h3)))
    rw [if_neg h3]
    by_cases h4 : rabs (rclamp x 0 1 - 1) < 1/1000
    · rw [if_pos h4]; exact iff_of_true rfl (Or.inr (Or.inr (Or.inr h4)))
    rw [if_neg h4]
    exact iff_of_false (by decide)
      (fun h => h.elim h1 (fun h => h.elim h2 (fun h => h.elim h3 h4)))

/-!
Session stream manager, from `crates/prx-memory-mcp/src/server.rs`
(lines 123-153 for the data model, 743-890 for the operations).  The wall
clock (`now_ms()`) and the configured TTL (`session_ttl_ms()`) are explicit
parameters; the JSON event payload is opaque and modelled as a `String`.
-/

/-- Embedding of `StreamEvent`. -/
structure StreamEvent where
  seq : ℕ
  payload : String
  created_ms : ℕ
deriving DecidableEq

/-- Embedding of `SessionState`. -/
structure SessionState where
  next_seq : ℕ
  events : List StreamEvent
  last_touch_ms : ℕ
  acked_seq : ℕ
  lease_expires_ms : ℕ
deriving DecidableEq

/-- Embedding of `SessionEventPage`. -/
structure SessionEventPage where
  events : List StreamEvent
  effective_from : ℕ
  next_from : ℕ
  ack_applied : Option ℕ
  lease_expires_ms : ℕ
deriving DecidableEq

/-- Embedding of `SessionAccessError` (`Poisoned` is the lock-poison case,
which the pure embedding never produces). -/
inductive SessionAccessError where
  | NotFound
  | Expired
  | Poisoned
deriving DecidableEq

/-- Rust `while state.events.len() > 512 { state.events.pop_front(); }`
generalised over the cap. -/
def dropFrontOver (cap : ℕ) (l : List StreamEvent) : List StreamEvent :=
  if l.length > cap then
    match l with
    | [] => []
    | _ :: rest => dropFrontOver cap rest
  else l
termination_by l.length
decreasing_by simp_all

/-- Body of `append_session_event` after the session has been found and its
lease checked: assign `seq = next_seq`, advance `next_seq`, extend the lease,
push the event and cap the queue at 512. -/
def appendCore (st : SessionState) (payload : String) (now ttl : ℕ) :
    ℕ × SessionState :=
  let seq := st.next_seq
  let ev : StreamEvent := ⟨seq, payload, now⟩
  (seq,
    { next_seq := st.next_seq + 1
      events := dropFrontOver 512 (st.events ++ [ev])
      last_touch_ms := now
      acked_seq := st.acked_seq
      lease_expires_ms := now + ttl })

/-- Body of `collect_session_events` after the session has been found and its
lease checked (`server.rs` lines 859-890): apply the optional ack by advancing
`acked_seq` and popping the queue front while `front.seq ≤ acked_seq`, extend
the lease, then page events from `effective_from = max(from_seq, oldest queued
seq or next_seq)`. -/
def collectCore (st : SessionState) (from_seq limit : ℕ) (ack_seq : Option ℕ)
    (now ttl : ℕ) : SessionEventPage × SessionState :=
  let acked := match ack_seq with
    | some ack => max st.acked_seq ack
    | none => st.acked_seq
  let evs := match ack_seq with
    | some _ => st.events.dropWhile (fun e => e.seq ≤ acked)
    | none => st.events
  let ack_applied := ack_seq.map (fun _ => acked)
  let st' : SessionState :=
    { next_seq := st.next_seq
      events := evs
      last_touch_ms := now
      acked_seq := acked
      lease_expires_ms := now + ttl }
  let oldest := ((evs.head?.map StreamEvent.seq).getD st.next_seq)
  let effective_from := max from_seq oldest
  let page_events := (evs.filter (fun e => effective_from ≤ e.seq)).take limit
  let next_from := ((page_events.getLast?.map (fun e => e.seq + 1)).getD effective_from)
  (⟨page_events, effective_from, next_from, ack_applied, now + ttl⟩, st')

/-- Body of `renew_session_lease` after the session has been found and its
lease checked. -/
def renewCore (st : SessionState) (now ttl : ℕ) : SessionState :=
  { st with last_touch_ms := now, lease_expires_ms := now + ttl }

/-- One session-stream operation, for stating trace properties. -/
inductive SessionOp where
  | append (payload : String) (now ttl : ℕ)
  | collect (from_seq limit : ℕ) (ack_seq : Option ℕ) (now ttl : ℕ)
  | renew (now ttl : ℕ)
deriving DecidableEq

/-- Apply one operation to a session state, discarding its output. -/
def applyOp (st : SessionState) : SessionOp → SessionState
  | .append payload now ttl => (appendCore st payload now ttl).2
  | .collect from_seq limit ack now ttl => (collectCore st from_seq limit ack now ttl).2
  | .renew now ttl => renewCore st now ttl

/-- Apply a list of operations in order. -/
def applyOps (st : SessionState) (ops : List SessionOp) : SessionState :=
  ops.foldl applyOp st

/-- Session queue invariant: event sequence numbers strictly increase along the
queue and stay below `next_seq`.  It holds for a fresh session and is
preserved by every operation. -/
def sessionInv (st : SessionState) : Prop :=
  st.events.Pairwise (fun a b => a.seq < b.seq) ∧
    ∀ e ∈ st.events, e.seq < st.next_seq

instance (st : SessionState) : Decidable (sessionInv st) := by
  unfold sessionInv; infer_instance

/-!
Session table (the `sessions: Mutex<HashMap<String, SessionState>>` field),
modelled as an association list, for the lazy-expiry claims.
-/

/-- Session table. -/
def Sessions := List (String × SessionState)

/-- Embedding of `cleanup_expired_sessions_locked`: retain only sessions whose
lease expiry is strictly in the future. -/
def cleanupExpiredSessions (sessions : Sessions) (now : ℕ) : Sessions :=
  sessions.filter (fun p => now < p.2.lease_expires_ms)

/-- Replace the state stored under a session id. -/
def updateSession (sessions : Sessions) (sid : String) (st : SessionState) :
    Sessions :=
  sessions.map (fun p => if p.1 = sid then (sid, st) else p)

/-- Embedding of `renew_session_lease` (lines 781-802): lazy cleanup, lookup,
explicit lease check (removing the session and reporting `Expired` when it
fires), then lease extension. -/
def renewSessionLease (sessions : Sessions) (sid : String) (now ttl : ℕ) :
    Except SessionAccessError ℕ × Sessions :=
  let ss := cleanupExpiredSessions sessions now
  match List.lookup sid ss with
  | none => (.error .NotFound, ss)
  | some st =>
    if st.lease_expires_ms ≤ now then
      (.error .Expired, ss.filter (fun p => p.1 ≠ sid))
    else
      let st' := renewCore st now ttl
      (.ok st'.lease_expires_ms, updateSession ss sid st')

/-- Embedding of `append_session_event` (lines 804-836) at the session-table
level. -/
def appendSessionEvent (sessions : Sessions) (sid : String) (payload : String)
    (now ttl : ℕ) : Except SessionAccessError (ℕ × ℕ) × Sessions :=
  let ss := cleanupExpiredSessions sessions now
  match List.lookup sid ss with
  | none => (.error .NotFound, ss)
  | some st =>
    if st.lease_expires_ms ≤ now then
      (.error .Expired, ss.filter (fun p => p.1 ≠ sid))
    else
      let r := appendCore st payload now ttl
      (.ok (r.1, r.2.lease_expires_ms), updateSession ss sid r.2)

/-- Embedding of `collect_session_events` (lines 838-890) at the session-table
level. -/
def collectSessionEvents (sessions : Sessions) (sid : String)
    (from_seq limit : ℕ) (ack_seq : Option ℕ) (now ttl : ℕ) :
    Except SessionAccessError SessionEventPage × Sessions :=
  let ss := cleanupExpiredSessions sessions now
  match List.lookup sid ss with
  | none => (.error .NotFound, ss)
  | some st =>
    if st.lease_expires_ms ≤ now then
      (.error .Expired, ss.filter (fun p => p.1 ≠ sid))
    else
      let r := collectCore st from_seq limit ack_seq now ttl
      (.ok r.1, updateSession ss sid r.2)

/-! Supporting lemmas for the session-stream claims. -/

theorem dropFrontOver_eq_drop (cap : ℕ) (l : List StreamEvent) :
    dropFrontOver cap l = l.drop (l.length - cap) := by
  induction l with
  | nil => rw [dropFrontOver]; simp
  | cons x xs ih =>
    rw [dropFrontOver]
    by_cases h : (x :: xs).length > cap
    · simp only [if_pos h, ih]
      have hx : (x :: xs).length - cap = (xs.length - cap) + 1 := by
        simp only [List.length_cons] at h ⊢; omega
      rw [hx, List.drop_succ_cons]
    · simp only [if_neg h]
      have hx : (x :: xs).length - cap = 0 := by omega
      rw [hx, List.drop_zero]

theorem dropWhile_suffix_of (p : StreamEvent → Bool) (l : List StreamEvent) :
    l.dropWhile p <:+ l := by
  induction l with
  | nil => simp [List.dropWhile]
  | cons x xs ih =>
    rw [List.dropWhile]
    by_cases h : p x
    · simp only [h]
      exact ih.trans (List.suffix_cons x xs)
    · simp only [Bool.not_eq_true] at h
      simp only [h]
      exact List.suffix_refl _

theorem sorted_dropWhile_eq_filter (a : ℕ) (l : List StreamEvent)
    (hs : l.Pairwise (fun x y => x.seq < y.seq)) :
    l.dropWhile (fun e => e.seq ≤ a) = l.filter (fun e => a < e.seq) := by
  induction l with
  | nil => rfl
  | cons x xs ih =>
    rcases List.pairwise_cons.mp hs with ⟨hx, hxs⟩
    rw [List.dropWhile_cons, List.filter_cons]
    by_cases h : x.seq ≤ a
    · have h2 : ¬ (a < x.seq) := Nat.not_lt.mpr h
      rw [if_pos (by simpa using h), if_neg (by simpa using h2)]
      exact ih hxs
    · have h2 : a < x.seq := Nat.lt_of_not_le h
      rw [if_neg (by simpa using h), if_pos (by simpa using h2)]
      congr 1
      refine (List.filter_eq_self.mpr ?_).symm
      intro b hb
      have : x.seq < b.seq := hx b hb
      simpa using Nat.lt_trans h2 this

theorem mem_dropWhile_gt (a : ℕ) (l : List StreamEvent)
    (hs : l.Pairwise (fun x y => x.seq < y.seq)) :
    ∀ e ∈ l.dropWhile (fun e => e.seq ≤ a), a < e.seq := by
  intro e he
  rw [sorted_dropWhile_eq_filter a l hs] at he
  simpa using (List.mem_filter.mp he).2

/-- All sequence numbers in the state (queued events and `next_seq`) are
strictly above `k`: the state can never again serve an event with
`seq ≤ k`. -/
def aboveK (k : ℕ) (st : SessionState) : Prop :=
  k < st.next_seq ∧ ∀ e ∈ st.events, k < e.seq

theorem appendCore_inv {st : SessionState} (h : sessionInv st)
    (payload : String) (now ttl : ℕ) :
    sessionInv (appendCore st payload now ttl).2 := by
  obtain ⟨hp, hb⟩ := h
  have hsub : (appendCore st payload now ttl).2.events.Sublist
      (st.events ++ [⟨st.next_seq, payload, now⟩]) := by
    show (dropFrontOver 512 _).Sublist _
    rw [dropFrontOver_eq_drop]
    exact (List.drop_suffix _ _).sublist
  constructor
  · refine List.Pairwise.sublist hsub ?_
    rw [List.pairwise_append]
    refine ⟨hp, List.pairwise_singleton _ _, ?_⟩
    intro a ha b hbm
    rcases List.mem_singleton.mp hbm with rfl
    exact hb a ha
  · intro e he
    have := hsub.mem he
    rcases List.mem_append.mp this with h1 | h1
    · exact Nat.lt_succ_of_lt (hb e h1)
    · rcases List.mem_singleton.mp h1 with rfl
      exact Nat.lt_succ_self _

theorem collectCore_inv {st : SessionState} (h : sessionInv st)
    (from_seq limit : ℕ) (ack : Option ℕ) (now ttl : ℕ) :
    sessionInv (collectCore st from_seq limit ack now ttl).2 := by
  obtain ⟨hp, hb⟩ := h
  cases ack with
  | none => exact ⟨hp, hb⟩
  | some k =>
    have hsub : (collectCore st from_seq limit (some k) now ttl).2.events.Sublist
        st.events := (dropWhile_suffix_of _ _).sublist
    exact ⟨hp.sublist hsub, fun e he => hb e (hsub.mem he)⟩

theorem applyOp_inv {st : SessionState} (h : sessionInv st) (op : SessionOp) :
    sessionInv (applyOp st op) := by
  cases op with
  | append payload now ttl => exact appendCore_inv h payload now ttl
  | collect from_seq limit ack now ttl => exact collectCore_inv h from_seq limit ack now ttl
  | renew now ttl => exact h

theorem applyOp_above {k : ℕ} {st : SessionState}
    (h : aboveK k st) (op : SessionOp) : aboveK k (applyOp st op) := by
  obtain ⟨hn, hev⟩ := h
  cases op with
  | append payload now ttl =>
    refine ⟨Nat.lt_succ_of_lt hn, ?_⟩
    intro e he
    have hsub : (appendCore st payload now ttl).2.events.Sublist
        (st.events ++ [⟨st.next_seq, payload, now⟩]) := by
      show (dropFrontOver 512 _).Sublist _
      rw [dropFrontOver_eq_drop]
      exact (List.drop_suffix _ _).sublist
    rcases List.mem_append.mp (hsub.mem he) with h1 | h1
    · exact hev e h1
    · rcases List.mem_singleton.mp h1 with rfl
      exact hn
  | collect from_seq limit ack now ttl =>
    refine ⟨hn, ?_⟩
    intro e he
    cases ack with
    | none => exact hev e he
    | some a =>
      have hsub : (collectCore st from_seq limit (some a) now ttl).2.events.Sublist
          st.events := (dropWhile_suffix_of _ _).sublist
      exact hev e (hsub.mem he)
  | renew now ttl => exact ⟨hn, hev⟩

theorem applyOps_inv_above {k : ℕ} {st : SessionState} (hinv : sessionInv st)
    (h : aboveK k st) (ops : List SessionOp) :
    sessionInv (applyOps st ops) ∧ aboveK k (applyOps st ops) := by
  induction ops generalizing st with
  | nil => exact ⟨hinv, h⟩
  | cons op rest ih =>
    exact ih (applyOp_inv hinv op) (applyOp_above h op)

theorem collectCore_events_mem {st : SessionState} {from_seq limit : ℕ}
    {ack : Option ℕ} {now ttl : ℕ} {e : StreamEvent}
    (he : e ∈ (collectCore st from_seq limit ack now ttl).1.events) :
    e ∈ st.events := by
  have h1 : e ∈ (collectCore st from_seq limit ack now ttl).2.events := by
    have := List.mem_of_mem_take he
    exact (List.mem_filter.mp this).1
  cases ack with
  | none => exact h1
  | some a => exact (dropWhile_suffix_of _ _).sublist.mem h1

theorem collectCore_ack_above {st : SessionState} {from_seq limit k now ttl : ℕ}
    (hinv : sessionInv st) (hk : k < st.next_seq) :
    aboveK k (collectCore st from_seq limit (some k) now ttl).2 := by
  refine ⟨hk, ?_⟩
  intro e he
  have : max st.acked_seq k < e.seq :=
    mem_dropWhile_gt (max st.acked_seq k) st.events hinv.1 e he
  exact Nat.lt_of_le_of_lt (Nat.le_max_right _ _) this

/-- Contract of a single `collect` on an active session: the applied ack
advances `acked_seq` to the max and pops exactly the queued events with
`seq ≤ acked_seq`; `effective_from` is the max of `from_seq` and the oldest
queued seq (or `next_seq` when the queue is empty); at most `limit` events,
all with `seq ≥ effective_from`, are returned; and `next_from` is the last
returned seq + 1 (or `effective_from` when none are returned). -/
def collectFacts (st : SessionState) (from_seq limit : ℕ) (ack : Option ℕ)
    (now ttl : ℕ) : Prop :=
  let page := (collectCore st from_seq limit ack now ttl).1
  let st' := (collectCore st from_seq limit ack now ttl).2
  page.events.length ≤ limit ∧
  page.effective_from =
    max from_seq ((st'.events.head?.map StreamEvent.seq).getD st.next_seq) ∧
  (∀ e ∈ page.events, page.effective_from ≤ e.seq) ∧
  page.next_from =
    ((page.events.getLast?.map (fun e => e.seq + 1)).getD page.effective_from) ∧
  (∀ k, ack = some k →
    st'.acked_seq = max st.acked_seq k ∧
    page.ack_applied = some (max st.acked_seq k) ∧
    st'.events = st.events.filter (fun e => st'.acked_seq < e.seq)) ∧
  (ack = none →
    st'.acked_seq = st.acked_seq ∧ st'.events = st.events ∧ page.ack_applied = none)

/-- C6 counterexample: collect can ack a sequence number that was never
assigned (`ack_seq` far above `next_seq`); a later append then hands out a
smaller seq, and a later collect returns that event even though its seq is
not above the acked value — refuting "after a collect that acks k, every
later collect returns only events with seq > k". -/
theorem c6_counterexample :
    ((collectCore
        (applyOps ((collectCore ⟨1, [], 0, 0, 1000⟩ 1 10 (some 1000) 0 1000).2)
          [SessionOp.append "x" 5 1000])
        0 10 none 5 1000).1.events.map StreamEvent.seq = [1]) ∧ (1 : ℕ) ≤ 1000 := by
  constructor
  · with_unfolding_all rfl
  · decide

/-- C6 (amended): for every collect on an active session (whose event queue
satisfies the monotone-seq invariant), the applied ack advances `acked_seq` to
`max(acked_seq, ack_seq)` and pops exactly the queued events with
`seq ≤ acked_seq`; `effective_from = max(from_seq, oldest queued seq or
next_seq)`; at most `limit` events with `seq ≥ effective_from` are returned,
with `next_from = last returned seq + 1` (or `effective_from` when none);
and after a collect that acks `k`, provided `k` is below the session's
`next_seq` at that point, every later collect (after any sequence of
append/collect/renew operations) returns only events with `seq > k`. -/
theorem c6_collect_amended :
    (∀ (st : SessionState) (from_seq limit : ℕ) (ack : Option ℕ) (now ttl : ℕ),
      sessionInv st → collectFacts st from_seq limit ack now ttl) ∧
    (∀ (st : SessionState) (from_seq limit k now ttl : ℕ),
      sessionInv st → k < st.next_seq →
      ∀ (ops : List SessionOp) (f2 l2 : ℕ) (a2 : Option ℕ) (n2 t2 : ℕ),
        ∀ e ∈ (collectCore
            (applyOps ((collectCore st from_seq limit (some k) now ttl).2) ops)
            f2 l2 a2 n2 t2).1.events, k < e.seq) := by
  constructor
  · intro st from_seq limit ack now ttl hinv
    refine ⟨?_, ?_, ?_, ?_, ?_, ?_⟩
    · exact List.length_take_le _ _
    · rfl
    · intro e he
      exact of_decide_eq_true (List.mem_filter.mp (List.mem_of_mem_take he)).2
    · rfl
    · rintro k rfl
      refine ⟨rfl, rfl, ?_⟩
      exact sorted_dropWhile_eq_filter (max st.acked_seq k) st.events hinv.1
    · rintro rfl
      exact ⟨rfl, rfl, rfl⟩
  · intro st from_seq limit k now ttl hinv hk ops f2 l2 a2 n2 t2 e he
    have h1 : sessionInv ((collectCore st from_seq limit (some k) now ttl).2) :=
      collectCore_inv hinv from_seq limit (some k) now ttl
    have h2 : aboveK k ((collectCore st from_seq limit (some k) now ttl).2) :=
      collectCore_ack_above hinv hk
    have h3 := applyOps_inv_above h1 h2 ops
    exact h3.2.2 e (collectCore_events_mem he)

/-- C6 witness: the amended collect contract instantiated on a concrete
two-event session, and the trace property instantiated on a concrete
ack-then-append trace. -/
theorem c6_witness :
    collectFacts ⟨3, [⟨1, "a", 0⟩, ⟨2, "b", 0⟩], 0, 0, 500⟩ 1 10 (some 1) 7 500 ∧
    (∀ e ∈ (collectCore
        (applyOps ((collectCore ⟨3, [⟨1, "a", 0⟩, ⟨2, "b", 0⟩], 0, 0, 500⟩
            1 10 (some 2) 7 500).2) [SessionOp.append "c" 9 500])
        1 10 none 9 500).1.events, 2 < e.seq) := by
  constructor
  · exact c6_collect_amended.1 ⟨3, [⟨1, "a", 0⟩, ⟨2, "b", 0⟩], 0, 0, 500⟩
      1 10 (some 1) 7 500 (by decide)
  · exact c6_collect_amended.2 ⟨3, [⟨1, "a", 0⟩, ⟨2, "b", 0⟩], 0, 0, 500⟩
      1 10 2 7 500 (by decide) (by decide) [SessionOp.append "c" 9 500] 1 10 none 9 500

theorem lookup_pair_cons (sid k : String) (v : SessionState) (rest : Sessions) :
    List.lookup sid ((k, v) :: rest) =
      if sid = k then some v else List.lookup sid rest := by
  by_cases h : sid = k
  · rw [if_pos h]; subst h; simp [List.lookup]
  · rw [if_neg h]
    have hb : (sid == k) = false := beq_eq_false_iff_ne.mpr h
    simp [List.lookup, hb]

theorem lookup_cleanup_live {sessions : Sessions} {sid : String}
    {st : SessionState} {now : ℕ}
    (h : List.lookup sid (cleanupExpiredSessions sessions now) = some st) :
    now < st.lease_expires_ms := by
  induction sessions with
  | nil => simp [cleanupExpiredSessions] at h
  | cons p rest ih =>
    obtain ⟨k, v⟩ := p
    by_cases hp : now < v.lease_expires_ms
    · rw [cleanupExpiredSessions, List.filter_cons, if_pos (decide_eq_true hp),
        lookup_pair_cons] at h
      by_cases hsid : sid = k
      · rw [if_pos hsid] at h
        cases h
        exact hp
      · rw [if_neg hsid] at h
        exact ih h
    · rw [cleanupExpiredSessions, List.filter_cons,
        if_neg (by simpa using hp)] at h
      exact ih h

theorem keys_cleanup_subset {sessions : Sessions} {sid : String} {now : ℕ}
    (h : sid ∉ sessions.map Prod.fst) :
    List.lookup sid (cleanupExpiredSessions sessions now) = none := by
  induction sessions with
  | nil => rfl
  | cons p rest ih =>
    obtain ⟨k, v⟩ := p
    simp only [List.map_cons, List.mem_cons, not_or] at h
    rw [cleanupExpiredSessions, List.filter_cons]
    by_cases hp : now < v.lease_expires_ms
    · rw [if_pos (decide_eq_true hp), lookup_pair_cons, if_neg h.1]
      exact ih h.2
    · rw [if_neg (by simpa using hp)]
      exact ih h.2

theorem lookup_cleanup_expired {sessions : Sessions} {sid : String}
    {st : SessionState} {now : ℕ}
    (hnd : (sessions.map Prod.fst).Nodup)
    (h : List.lookup sid sessions = some st) (hexp : st.lease_expires_ms ≤ now) :
    List.lookup sid (cleanupExpiredSessions sessions now) = none := by
  induction sessions with
  | nil => simp at h
  | cons p rest ih =>
    obtain ⟨k, v⟩ := p
    rw [lookup_pair_cons] at h
    rw [List.map_cons] at hnd
    rcases List.nodup_cons.mp hnd with ⟨hk, hnd'⟩
    by_cases hsid : sid = k
    · rw [if_pos hsid] at h
      cases h
      rw [cleanupExpiredSessions, List.filter_cons,
        if_neg (by simpa using Nat.not_lt.mpr hexp)]
      subst hsid
      exact keys_cleanup_subset hk
    · rw [if_neg hsid] at h
      have hrest := ih hnd' h
      rw [cleanupExpiredSessions, List.filter_cons]
      by_cases hp : now < v.lease_expires_ms
      · rw [if_pos (decide_eq_true hp), lookup_pair_cons, if_neg hsid]
        exact hrest
      · rw [if_neg (by simpa using hp)]
        exact hrest

/-- C10: for every session access (renew, append, collect) the `Expired`
error variant is never produced: the lazy cleanup performed at the start of
each access removes every session whose `lease_expires_ms ≤ now`, so the
post-lookup lease check can never fire; an access to a session whose lease
has expired (in a table without duplicate ids) reports `NotFound` with the
session no longer present in the table. -/
theorem c10_no_expired_error :
    ∀ (sessions : Sessions) (sid payload : String) (from_seq limit : ℕ)
      (ack : Option ℕ) (now ttl : ℕ),
      ((renewSessionLease sessions sid now ttl).1 ≠ .error .Expired ∧
        (appendSessionEvent sessions sid payload now ttl).1 ≠ .error .Expired ∧
        (collectSessionEvents sessions sid from_seq limit ack now ttl).1 ≠
          .error .Expired) ∧
      ((sessions.map Prod.fst).Nodup →
        ∀ st, List.lookup sid sessions = some st → st.lease_expires_ms ≤ now →
          (renewSessionLease sessions sid now ttl).1 = .error .NotFound ∧
          List.lookup sid (renewSessionLease sessions sid now ttl).2 = none ∧
          (appendSessionEvent sessions sid payload now ttl).1 = .error .NotFound ∧
          List.lookup sid (appendSessionEvent sessions sid payload now ttl).2 = none ∧
          (collectSessionEvents sessions sid from_seq limit ack now ttl).1 =
            .error .NotFound ∧
          List.lookup sid
            (collectSessionEvents sessions sid from_seq limit ack now ttl).2 = none) := by
  intro sessions sid payload from_seq limit ack now ttl
  constructor
  · refine ⟨?_, ?_, ?_⟩
    · rw [renewSessionLease]
      cases hl : List.lookup sid (cleanupExpiredSessions sessions now) with
      | none => simp
      | some st =>
        have hlt := lookup_cleanup_live hl
        simp [Nat.not_le.mpr hlt]
    · rw [appendSessionEvent]
      cases hl : List.lookup sid (cleanupExpiredSessions sessions now) with
      | none => simp
      | some st =>
        have hlt := lookup_cleanup_live hl
        simp [Nat.not_le.mpr hlt]
    · rw [collectSessionEvents]
      cases hl : List.lookup sid (cleanupExpiredSessions sessions now) with
      | none => simp
      | some st =>
        have hlt := lookup_cleanup_live hl
        simp [Nat.not_le.mpr hlt]
  · intro hnd st hl hexp
    have hnone : List.lookup sid (cleanupExpiredSessions sessions now) = none :=
      lookup_cleanup_expired hnd hl hexp
    refine ⟨?_, ?_, ?_, ?_, ?_, ?_⟩ <;>
      simp only [renewSessionLease, appendSessionEvent, collectSessionEvents, hnone]

/-- C10 witness: a one-session table whose lease has just expired, accessed
at `now = 10`: all three accesses report `NotFound` (never `Expired`) and the
session is gone. -/
theorem c10_witness :
    ((renewSessionLease [("s1", ⟨1, [], 0, 0, 10⟩)] "s1" 10 100).1 ≠
        .error .Expired) ∧
      (renewSessionLease [("s1", ⟨1, [], 0, 0, 10⟩)] "s1" 10 100).1 =
        .error .NotFound ∧
      List.lookup "s1"
        (collectSessionEvents [("s1", ⟨1, [], 0, 0, 10⟩)] "s1" 0 5 none 10 100).2 =
        none := by
  have h := c10_no_expired_error [("s1", ⟨1, [], 0, 0, 10⟩)] "s1" "p" 0 5 none 10 100
  have h2 := h.2 (by decide) ⟨1, [], 0, 0, 10⟩ (by decide) (by decide)
  exact ⟨h.1.1, h2.1, h2.2.2.2.2.2⟩

/-!
Embedding-runtime cache, from `crates/prx-memory-mcp/src/server.rs`
(lines 250-276 for the data model, 4649-4748 for the operations).  The
`HashMap` of entries is an association list; `f32` vectors are lists of
rationals; the token-bucket fields are carried along (as exact rationals)
but are not involved in the cache claims.
-/

/-- Embedding of `EmbedRuntimeStats`. -/
structure EmbedRuntimeStats where
  cache_hits : ℕ
  cache_misses : ℕ
  cache_evictions : ℕ
  rate_wait_events : ℕ
  rate_wait_ms_total : ℕ
deriving DecidableEq

/-- Embedding of `EmbedCacheEntry`. -/
structure EmbedCacheEntry where
  value : List ℚ
  expire_at_ms : ℕ
deriving DecidableEq

/-- Embedding of `EmbedRuntime`. -/
structure EmbedRuntime where
  entries : List (String × EmbedCacheEntry)
  lru : List String
  capacity : ℕ
  ttl_ms : ℕ
  tokens : ℚ
  max_tokens : ℚ
  refill_per_sec : ℚ
  last_refill_ms : ℕ
  stats : EmbedRuntimeStats
deriving DecidableEq

/-- Rust `HashMap::remove(key)` on the association-list model. -/
def removeEntry (entries : List (String × EmbedCacheEntry)) (key : String) :
    List (String × EmbedCacheEntry) :=
  entries.filter (fun p => p.1 ≠ key)

/-- Rust `HashMap::insert(key, v)` on the association-list model. -/
def insertEntry (entries : List (String × EmbedCacheEntry)) (key : String)
    (v : EmbedCacheEntry) : List (String × EmbedCacheEntry) :=
  removeEntry entries key ++ [(key, v)]

/-- Embedding of `EmbedRuntime::bump_lru`: drop `key` from the LRU order and
push it at the tail. -/
def bumpLru (lru : List String) (key : String) : List String :=
  lru.filter (fun x => x ≠ key) ++ [key]

/-- Embedding of `EmbedRuntime::cache_get`: a hit (present and not expired)
moves the key to the LRU tail and counts `cache_hits`; a miss removes the key
when it was present-but-expired and counts `cache_misses`. -/
def cacheGet (rt : EmbedRuntime) (key : String) (now : ℕ) :
    Option (List ℚ) × EmbedRuntime :=
  match List.lookup key rt.entries with
  | some entry =>
    if entry.expire_at_ms ≥ now then
      (some entry.value,
        { rt with
            lru := bumpLru rt.lru key
            stats := { rt.stats with cache_hits := rt.stats.cache_hits + 1 } })
    else
      (none,
        { rt with
            entries := removeEntry rt.entries key
            lru := rt.lru.filter (fun x => x ≠ key)
            stats := { rt.stats with cache_misses := rt.stats.cache_misses + 1 } })
  | none =>
    (none,
      { rt with
          stats := { rt.stats with cache_misses := rt.stats.cache_misses + 1 } })

/-- Rust `while self.entries.len() > self.capacity { ... }` eviction loop of
`cache_put`: pop the LRU head and remove it from the entry map, counting an
eviction for each successful removal, until the map fits (or the LRU order is
exhausted). -/
def evictLoop (entries : List (String × EmbedCacheEntry)) (lru : List String)
    (capacity evictions : ℕ) :
    List (String × EmbedCacheEntry) × List String × ℕ :=
  if entries.length > capacity then
    match lru with
    | [] => (entries, lru, evictions)
    | old :: rest =>
      if (List.lookup old entries).isSome then
        evictLoop (removeEntry entries old) rest capacity (evictions + 1)
      else
        evictLoop entries rest capacity evictions
  else (entries, lru, evictions)
termination_by lru.length
decreasing_by all_goals simp_all [List.length_cons]

/-- Embedding of `EmbedRuntime::cache_put`: insert with
`expire_at_ms = now + ttl_ms`, bump the key to the LRU tail, then evict LRU
heads while over capacity. -/
def cachePut (rt : EmbedRuntime) (key : String) (value : List ℚ) (now : ℕ) :
    EmbedRuntime :=
  let entries₁ := insertEntry rt.entries key ⟨value, now + rt.ttl_ms⟩
  let lru₁ := bumpLru rt.lru key
  let r := evictLoop entries₁ lru₁ rt.capacity rt.stats.cache_evictions
  { rt with
      entries := r.1
      lru := r.2.1
      stats := { rt.stats with cache_evictions := r.2.2 } }

/-- Cache coherence invariant of `EmbedRuntime`: the LRU order and the entry
map are in sync (same keys, no duplicates).  It holds for the fresh runtime
and is preserved by `cache_get` / `cache_put`. -/
def cacheSync (entries : List (String × EmbedCacheEntry)) (lru : List String) :
    Prop :=
  (entries.map Prod.fst).Nodup ∧ lru.Nodup ∧
    (∀ x ∈ lru, (List.lookup x entries).isSome = true) ∧
    (∀ p ∈ entries, p.1 ∈ lru)

instance (entries : List (String × EmbedCacheEntry)) (lru : List String) :
    Decidable (cacheSync entries lru) := by
  unfold cacheSync; infer_instance

/-! Association-list lemmas for the cache model. -/

theorem lookup_entry_cons (x k : String) (v : EmbedCacheEntry)
    (rest : List (String × EmbedCacheEntry)) :
    List.lookup x ((k, v) :: rest) =
      if x = k then some v else List.lookup x rest := by
  by_cases h : x = k
  · rw [if_pos h]; subst h; simp [List.lookup]
  · rw [if_neg h]
    have hb : (x == k) = false := beq_eq_false_iff_ne.mpr h
    simp [List.lookup, hb]

theorem lookup_removeEntry_self (l : List (String × EmbedCacheEntry))
    (k : String) : List.lookup k (removeEntry l k) = none := by
  induction l with
  | nil => rfl
  | cons p rest ih =>
    obtain ⟨k', v⟩ := p
    rw [removeEntry, List.filter_cons]
    by_cases h : k' = k
    · rw [if_neg (by simpa using h)]
      exact ih
    · rw [if_pos (by simpa using h), lookup_entry_cons,
        if_neg (fun hx => h hx.symm)]
      exact ih

theorem lookup_removeEntry_ne {x k : String} (h : x ≠ k)
    (l : List (String × EmbedCacheEntry)) :
    List.lookup x (removeEntry l k) = List.lookup x l := by
  induction l with
  | nil => rfl
  | cons p rest ih =>
    obtain ⟨k', v⟩ := p
    rw [removeEntry, List.filter_cons]
    by_cases hk : k' = k
    · rw [if_neg (by simpa using hk), lookup_entry_cons,
        if_neg (by rw [hk]; exact h)]
      exact ih
    · rw [if_pos (by simpa using hk), lookup_entry_cons, lookup_entry_cons]
      by_cases hx : x = k'
      · rw [if_pos hx, if_pos hx]
      · rw [if_neg hx, if_neg hx]
        exact ih

theorem lookup_append_entries (x : String)
    (l₁ l₂ : List (String × EmbedCacheEntry)) :
    List.lookup x (l₁ ++ l₂) =
      match List.lookup x l₁ with
      | some v => some v
      | none => List.lookup x l₂ := by
  induction l₁ with
  | nil => simp
  | cons p rest ih =>
    obtain ⟨k, v⟩ := p
    rw [List.cons_append, lookup_entry_cons, lookup_entry_cons]
    by_cases h : x = k
    · rw [if_pos h, if_pos h]
    · rw [if_neg h, if_neg h, ih]

theorem lookup_insertEntry_self (l : List (String × EmbedCacheEntry))
    (k : String) (v : EmbedCacheEntry) :
    List.lookup k (insertEntry l k v) = some v := by
  rw [insertEntry, lookup_append_entries, lookup_removeEntry_self,
    lookup_entry_cons, if_pos rfl]

theorem lookup_insertEntry_ne {x k : String} (h : x ≠ k)
    (l : List (String × EmbedCacheEntry)) (v : EmbedCacheEntry) :
    List.lookup x (insertEntry l k v) = List.lookup x l := by
  rw [insertEntry, lookup_append_entries, lookup_removeEntry_ne h]
  cases hx : List.lookup x l with
  | some w => rfl
  | none => rw [lookup_entry_cons, if_neg h]; rfl

theorem lookup_eq_none_iff_entries (x : String)
    (l : List (String × EmbedCacheEntry)) :
    List.lookup x l = none ↔ x ∉ l.map Prod.fst := by
  induction l with
  | nil => simp
  | cons p rest ih =>
    obtain ⟨k, v⟩ := p
    rw [lookup_entry_cons]
    by_cases h : x = k
    · rw [if_pos h]
      simp [h]
    · rw [if_neg h]
      simp only [List.map_cons, List.mem_cons, not_or, ih]
      exact ⟨fun hx => ⟨h, hx⟩, fun hx => hx.2⟩

theorem removeEntry_length_of_mem {l : List (String × EmbedCacheEntry)}
    {k : String} (hnd : (l.map Prod.fst).Nodup)
    (hmem : (List.lookup k l).isSome = true) :
    (removeEntry l k).length + 1 = l.length := by
  induction l with
  | nil => simp [List.lookup] at hmem
  | cons p rest ih =>
    obtain ⟨k', v⟩ := p
    rw [List.map_cons] at hnd
    rcases List.nodup_cons.mp hnd with ⟨hk, hnd'⟩
    rw [removeEntry, List.filter_cons]
    by_cases h : k' = k
    · rw [if_neg (by simpa using h)]
      subst h
      have : removeEntry rest k' = rest := by
        refine List.filter_eq_self.mpr ?_
        intro p hp
        have : p.1 ∈ rest.map Prod.fst := List.mem_map_of_mem Prod.fst hp
        simp only [ne_eq, decide_eq_true_eq]
        intro hpk
        exact hk (hpk ▸ this)
      rw [show List.filter (fun p => decide (p.1 ≠ k')) rest = removeEntry rest k'
          from rfl, this]
      simp
    · rw [if_pos (by simpa using h)]
      rw [lookup_entry_cons, if_neg (fun hx => h hx.symm)] at hmem
      have hlen : (List.filter (fun p => decide (p.1 ≠ k)) rest).length + 1 =
          rest.length := ih hnd' hmem
      simp only [List.length_cons]
      omega

theorem length_le_one_of_keys_all_eq {l : List (String × EmbedCacheEntry)}
    {k : String} (hnd : (l.map Prod.fst).Nodup) (hall : ∀ p ∈ l, p.1 = k) :
    l.length ≤ 1 := by
  match l with
  | [] => simp
  | [p] => simp
  | p :: q :: rest =>
    exfalso
    rw [List.map_cons] at hnd
    rcases List.nodup_cons.mp hnd with ⟨hp, _⟩
    apply hp
    have h1 : p.1 = k := hall p (List.mem_cons_self _ _)
    have h2 : q.1 = k := hall q (List.mem_cons_of_mem _ (List.mem_cons_self _ _))
    rw [h1, ← h2]
    exact List.mem_map_of_mem Prod.fst (List.mem_cons_self _ _)

theorem cacheSync_evict_step {entries : List (String × EmbedCacheEntry)}
    {old : String} {rest : List String}
    (hs : cacheSync entries (old :: rest)) :
    cacheSync (removeEntry entries old) rest := by
  obtain ⟨hnd, hlnd, hmem, hkeys⟩ := hs
  rcases List.nodup_cons.mp hlnd with ⟨hov, hrnd⟩
  refine ⟨?_, hrnd, ?_, ?_⟩
  · exact hnd.sublist ((List.filter_sublist _).map Prod.fst)
  · intro x hx
    have hxo : x ≠ old := fun he => hov (he ▸ hx)
    rw [lookup_removeEntry_ne hxo]
    exact hmem x (List.mem_cons_of_mem _ hx)
  · intro p hp
    have hpm : p ∈ entries := List.mem_of_mem_filter hp
    have hne : p.1 ≠ old := by simpa using List.of_mem_filter hp
    rcases List.mem_cons.mp (hkeys p hpm) with h1 | h1
    · exact absurd h1 hne
    · exact h1

theorem evictLoop_length_le {entries : List (String × EmbedCacheEntry)}
    {lru : List String} {cap ev : ℕ} (hs : cacheSync entries lru) :
    (evictLoop entries lru cap ev).1.length ≤ cap := by
  induction lru generalizing entries ev with
  | nil =>
    rw [evictLoop]
    by_cases h : entries.length > cap
    · exfalso
      match entries, h with
      | p :: rest, _ =>
        exact absurd (hs.2.2.2 p (List.mem_cons_self _ _)) (List.not_mem_nil _)
    · rw [if_neg h]
      exact Nat.le_of_not_lt h
  | cons old rest ih =>
    rw [evictLoop]
    by_cases h : entries.length > cap
    · rw [if_pos h, if_pos (hs.2.2.1 old (List.mem_cons_self _ _))]
      exact ih (cacheSync_evict_step hs)
    · rw [if_neg h]
      exact Nat.le_of_not_lt h

theorem evictLoop_count {entries : List (String × EmbedCacheEntry)}
    {lru : List String} {cap ev : ℕ} (hs : cacheSync entries lru) :
    (evictLoop entries lru cap ev).2.2 + (evictLoop entries lru cap ev).1.length
      = ev + entries.length := by
  induction lru generalizing entries ev with
  | nil =>
    rw [evictLoop]
    by_cases h : entries.length > cap
    · rw [if_pos h]
    · rw [if_neg h]
  | cons old rest ih =>
    rw [evictLoop]
    by_cases h : entries.length > cap
    · have hold := hs.2.2.1 old (List.mem_cons_self _ _)
      rw [if_pos h, if_pos hold]
      have hlen := removeEntry_length_of_mem hs.1 hold
      have hrec := @ih (removeEntry entries old) (ev + 1) (cacheSync_evict_step hs)
      omega
    · rw [if_neg h]

theorem evictLoop_lookup_last {entries : List (String × EmbedCacheEntry)}
    {cap ev : ℕ} {k : String} (l' : List String)
    (hs : cacheSync entries (l' ++ [k])) (hcap : 1 ≤ cap) :
    List.lookup k (evictLoop entries (l' ++ [k]) cap ev).1 =
      List.lookup k entries := by
  induction l' generalizing entries ev with
  | nil =>
    rw [List.nil_append, evictLoop]
    by_cases h : entries.length > cap
    · exfalso
      have hall : ∀ p ∈ entries, p.1 = k := by
        intro p hp
        simpa using hs.2.2.2 p hp
      have := length_le_one_of_keys_all_eq hs.1 hall
      omega
    · rw [if_neg h]
  | cons old l'' ih =>
    rw [List.cons_append, evictLoop]
    by_cases h : entries.length > cap
    · have hold := hs.2.2.1 old (List.mem_cons_self _ _)
      rw [if_pos h, if_pos hold]
      have hkold : k ≠ old := by
        rcases List.nodup_cons.mp hs.2.1 with ⟨hov, _⟩
        intro he
        exact hov (he ▸ List.mem_append_right l'' (List.mem_singleton_self k))
      exact (ih (cacheSync_evict_step hs)).trans (lookup_removeEntry_ne hkold _)
    · rw [if_neg h]

theorem cacheSync_insert_bump {entries : List (String × EmbedCacheEntry)}
    {lru : List String} (hs : cacheSync entries lru) (k : String)
    (e : EmbedCacheEntry) :
    cacheSync (insertEntry entries k e) (bumpLru lru k) := by
  obtain ⟨hnd, hlnd, hmem, hkeys⟩ := hs
  have hknr : k ∉ (removeEntry entries k).map Prod.fst :=
    (lookup_eq_none_iff_entries k _).mp (lookup_removeEntry_self entries k)
  refine ⟨?_, ?_, ?_, ?_⟩
  · rw [insertEntry, List.map_append]
    rw [List.nodup_append]
    refine ⟨hnd.sublist ((List.filter_sublist _).map Prod.fst),
      List.nodup_singleton _, ?_⟩
    intro x hx hx1
    rcases List.mem_singleton.mp hx1 with rfl
    exact hknr hx
  · rw [bumpLru, List.nodup_append]
    refine ⟨hlnd.sublist (List.filter_sublist _), List.nodup_singleton _, ?_⟩
    intro x hx hx1
    rcases List.mem_singleton.mp hx1 with rfl
    simpa using List.of_mem_filter hx
  · intro x hx
    rcases List.mem_append.mp hx with h1 | h1
    · have hxk : x ≠ k := by simpa using List.of_mem_filter h1
      rw [lookup_insertEntry_ne hxk]
      exact hmem x (List.mem_of_mem_filter h1)
    · rcases List.mem_singleton.mp h1 with rfl
      rw [lookup_insertEntry_self]
      rfl
  · intro p hp
    rcases List.mem_append.mp hp with h1 | h1
    · have hpk : p.1 ≠ k := by simpa using List.of_mem_filter h1
      refine List.mem_append_left _ ?_
      exact List.mem_filter.mpr ⟨hkeys p (List.mem_of_mem_filter h1), by simpa using hpk⟩
    · rcases List.mem_singleton.mp h1 with rfl
      exact List.mem_append_right _ (List.mem_singleton_self k)

theorem cachePut_lookup_self {rt : EmbedRuntime} {k : String} {v : List ℚ}
    {now : ℕ} (hs : cacheSync rt.entries rt.lru) (hcap : 1 ≤ rt.capacity) :
    List.lookup k (cachePut rt k v now).entries = some ⟨v, now + rt.ttl_ms⟩ := by
  have hs1 := cacheSync_insert_bump hs k ⟨v, now + rt.ttl_ms⟩
  have h := @evictLoop_lookup_last (insertEntry rt.entries k ⟨v, now + rt.ttl_ms⟩)
    rt.capacity rt.stats.cache_evictions k
    (rt.lru.filter (fun x => x ≠ k)) hs1 hcap
  exact h.trans (lookup_insertEntry_self _ _ _)

theorem cachePut_length_le {rt : EmbedRuntime} {k : String} {v : List ℚ}
    {now : ℕ} (hs : cacheSync rt.entries rt.lru) :
    (cachePut rt k v now).entries.length ≤ rt.capacity :=
  evictLoop_length_le (cacheSync_insert_bump hs k ⟨v, now + rt.ttl_ms⟩)

theorem cachePut_evictions {rt : EmbedRuntime} {k : String} {v : List ℚ}
    {now : ℕ} (hs : cacheSync rt.entries rt.lru) :
    (cachePut rt k v now).stats.cache_evictions +
        (cachePut rt k v now).entries.length
      = rt.stats.cache_evictions +
          (insertEntry rt.entries k ⟨v, now + rt.ttl_ms⟩).length :=
  evictLoop_count (cacheSync_insert_bump hs k ⟨v, now + rt.ttl_ms⟩)

theorem getLast_append_singleton (l : List String) (k : String) :
    (l ++ [k]).getLast? = some k := by
  induction l with
  | nil => rfl
  | cons x xs ih =>
    rw [List.cons_append, List.getLast?_cons, ih]
    rfl

/-- C8: embedding-cache round trip.  For a coherent cache (LRU order in sync
with the entry map) with capacity at least 1: a `cache_get(k)` right after
`cache_put(k, v)` at time `t` returns `v`, counts a hit and moves `k` to the
LRU tail whenever less than the TTL has elapsed; it misses, removes the entry
and counts a miss whenever more than the TTL has elapsed; and a put always
leaves the cache at no more than its capacity, counting one eviction per
entry evicted by the over-capacity loop. -/
theorem c8_cache_roundtrip :
    ∀ (rt : EmbedRuntime) (k : String) (v : List ℚ) (t now : ℕ),
      cacheSync rt.entries rt.lru → 1 ≤ rt.capacity →
      ((now < t + rt.ttl_ms →
        (cacheGet (cachePut rt k v t) k now).1 = some v ∧
        (cacheGet (cachePut rt k v t) k now).2.stats.cache_hits =
          rt.stats.cache_hits + 1 ∧
        (cacheGet (cachePut rt k v t) k now).2.lru.getLast? = some k) ∧
      (t + rt.ttl_ms < now →
        (cacheGet (cachePut rt k v t) k now).1 = none ∧
        List.lookup k (cacheGet (cachePut rt k v t) k now).2.entries = none ∧
        (cacheGet (cachePut rt k v t) k now).2.stats.cache_misses =
          rt.stats.cache_misses + 1) ∧
      ((cachePut rt k v t).entries.length ≤ rt.capacity ∧
        (cachePut rt k v t).stats.cache_evictions +
            (cachePut rt k v t).entries.length
          = rt.stats.cache_evictions +
              (insertEntry rt.entries k ⟨v, t + rt.ttl_ms⟩).length)) := by
  intro rt k v t now hs hcap
  have hl : List.lookup k (cachePut rt k v t).entries =
      some ⟨v, t + rt.ttl_ms⟩ := cachePut_lookup_self hs hcap
  refine ⟨?_, ?_, cachePut_length_le hs, cachePut_evictions hs⟩
  · intro hlt
    simp only [cacheGet, hl]
    rw [if_pos (Nat.le_of_lt hlt)]
    exact ⟨rfl, rfl, getLast_append_singleton _ k⟩
  · intro hgt
    simp only [cacheGet, hl]
    rw [if_neg (Nat.not_le.mpr hgt)]
    exact ⟨rfl, lookup_removeEntry_self _ _, rfl⟩

/-- Example runtime for the C8 witness: empty coherent cache, capacity 2,
TTL 10 ms. -/
def embedRuntimeExample : EmbedRuntime :=
  { entries := []
    lru := []
    capacity := 2
    ttl_ms := 10
    tokens := 2
    max_tokens := 2
    refill_per_sec := 2
    last_refill_ms := 0
    stats := ⟨0, 0, 0, 0, 0⟩ }

/-- C8 witness: on a concrete empty cache with TTL 10, a get 5 ms after the
put hits and returns the vector, a get 11 ms after the put misses, and the
put respects the capacity bound. -/
theorem c8_witness :
    (cacheGet (cachePut embedRuntimeExample "k" [1] 0) "k" 5).1 = some [1] ∧
    (cacheGet (cachePut embedRuntimeExample "k" [1] 0) "k" 11).1 = none ∧
    (cachePut embedRuntimeExample "k" [1] 0).entries.length ≤
      embedRuntimeExample.capacity := by
  refine ⟨?_, ?_, ?_⟩
  · exact ((c8_cache_roundtrip embedRuntimeExample "k" [1] 0 5 (by decide)
      (by decide)).1 (by decide)).1
  · exact ((c8_cache_roundtrip embedRuntimeExample "k" [1] 0 11 (by decide)
      (by decide)).2.1 (by decide)).1
  · exact (c8_cache_roundtrip embedRuntimeExample "k" [1] 0 5 (by decide)
      (by decide)).2.2.1

/-!
Hybrid recall engine, from `crates/prx-memory-storage/src/lib.rs`
(lines 26-64 for the data model, 460-700 for the algorithm).  Scores are
exact rationals.  Two `f32` subroutines have no rational counterpart —
`cosine_similarity` (uses `sqrt`) and `f32::log2` inside the length
normalisation — so they are abstracted into a `FloatOracle` parameter; the
properties proved below hold for every oracle, and the length-norm factor is
clamped to `[0.4, 1.0]` by the code itself, which is all the proofs use.
The unspecified iteration order of the `BinaryHeap` drain is resolved by
sorting with ties broken deterministically; the properties proved do not
depend on the tie order.
-/

/-- Rust `f32::max` on rationals. -/
def rmax (x y : ℚ) : ℚ :=
  if x ≤ y then y else x

/-- Substring test on character lists (Rust `str::contains`). -/
def listContainsSeg (pat : List Char) : List Char → Bool
  | [] => pat.isEmpty
  | c :: rest => pat.isPrefixOf (c :: rest) || listContainsSeg pat rest

/-- Rust `str::contains` for `String`s. -/
def strContains (s pat : String) : Bool :=
  listContainsSeg pat.toList s.toList

/-- Lowercase a string (ASCII; the repository's governed text is ASCII). -/
def strLower (s : String) : String :=
  ⟨s.toList.map Char.toLower⟩

theorem dropWhile_length_le {α : Type} (p : α → Bool) (l : List α) :
    (l.dropWhile p).length ≤ l.length := by
  induction l with
  | nil => simp [List.dropWhile]
  | cons x xs ih =>
    rw [List.dropWhile_cons]
    by_cases h : p x
    · rw [if_pos h]
      exact Nat.le_succ_of_le ih
    · rw [if_neg h]

/-- Rust `text.split(|c| !c.is_alphanumeric())` with empty segments dropped:
the maximal alphanumeric runs of the text. -/
def alnumRuns : List Char → List (List Char)
  | [] => []
  | c :: rest =>
    if c.isAlphanum then
      (c :: rest.takeWhile Char.isAlphanum) ::
        alnumRuns (rest.dropWhile Char.isAlphanum)
    else
      alnumRuns rest
termination_by l => l.length
decreasing_by
  · exact Nat.lt_succ_of_le (dropWhile_length_le _ _)
  · simp

/-- Embedding of storage `tokenize`: split the query on non-alphanumeric
boundaries, drop empty tokens, lowercase. -/
def tokenize (text : String) : List (List Char) :=
  (alnumRuns text.toList).map (List.map Char.toLower)

/-- Embedding of `MemoryEntry`. -/
structure MemoryEntry where
  id : String
  text : String
  category : String
  scope : String
  importance : ℚ
  tags : List String
  timestamp_ms : ℕ
  embedding : Option (List ℚ)
deriving DecidableEq

/-- Embedding of `NewMemoryEntry`. -/
structure NewMemoryEntry where
  text : String
  category : String
  scope : String
  importance : ℚ
  tags : List String
  embedding : Option (List ℚ)
deriving DecidableEq

/-- Embedding of `RecallQuery`. -/
structure RecallQuery where
  query : String
  query_embedding : Option (List ℚ)
  scope : Option String
  category : Option String
  limit : ℕ
  vector_weight : Option ℚ
  lexical_weight : Option ℚ
deriving DecidableEq

/-- Embedding of `RecallResult`. -/
structure RecallResult where
  entry : MemoryEntry
  score : ℚ
deriving DecidableEq

/-- Embedding of `RankedItem`. -/
structure RankedItem where
  idx : ℕ
  score : ℚ
deriving DecidableEq

/-- The two `f32` subroutines of the scorer that are irrational in general:
`cosine_similarity(a, b).unwrap_or(0.0)` and `f32::log2`. -/
structure FloatOracle where
  cos : List ℚ → List ℚ → ℚ
  log2 : ℚ → ℚ

/-- Embedding of `approx_doc_len`. -/
def approxDocLen (text : String) (tags : List String) : ℚ :=
  ((max (text.length / 5) 1 + max tags.length 1 : ℕ) : ℚ)

/-- Embedding of `term_frequency`: binary term presence in the entry text. -/
def termFrequency (text : String) (term : List Char) : ℚ :=
  if term.isEmpty then 0
  else if listContainsSeg term text.toList then 1 else 0

/-- Embedding of `apply_recency_boost`. -/
def applyRecencyBoost (score : ℚ) (now_ms timestamp_ms : ℕ) : ℚ :=
  let age_ms : ℚ := ((now_ms - timestamp_ms : ℕ) : ℚ)
  let age_days := age_ms / (1000 * 60 * 60 * 24)
  let boost := (1/10) / (1 + age_days / 14)
  score + boost

/-- Embedding of `apply_importance_weight`. -/
def applyImportanceWeight (score : ℚ) (importance : ℚ) : ℚ :=
  score * (7/10 + 3/10 * rclamp importance 0 1)

/-- Embedding of `apply_length_norm`. -/
def applyLengthNorm (F : FloatOracle) (score : ℚ) (text_len : ℕ) : ℚ :=
  if text_len ≤ 500 then score
  else
    let ratio : ℚ := (text_len : ℚ) / 500
    let norm := 1 / (1 + (1/2) * F.log2 ratio)
    score * rclamp norm (2/5) 1

/-- Embedding of `signature`: the content signature hashes the category, the
scope and the first 120 characters of the text; the model keeps the hashed
tuple itself. -/
def signature (e : MemoryEntry) : String × String × List Char :=
  (e.category, e.scope, e.text.toList.take 120)

/-- The `lexical_hits` / `bm25_local` accumulation of the candidate loop
(`recall_entries` lines 505-518). -/
def lexicalParts (terms : List (List Char)) (text : String) (tags : List String) :
    ℚ × ℚ :=
  let doc_len := approxDocLen text tags
  terms.foldl
    (fun acc term =>
      let tf := termFrequency text term
      if tf ≤ 0 then acc
      else
        let k1 : ℚ := 12/10
        let b : ℚ := 3/4
        let avg_anchor : ℚ := 32
        let denom := tf + k1 * (1 - b + b * (doc_len / avg_anchor))
        (acc.1 + 1, acc.2 + (tf * (k1 + 1)) / rmax denom (1/1000000)))
    (0, 0)

/-- Score of one candidate entry (`recall_entries` lines 504-547), `none` when
the candidate is skipped because every component is zero. -/
def scoreCandidate (F : FloatOracle) (now : ℕ) (terms : List (List Char))
    (query_embedding : Option (List ℚ)) (vw lw : ℚ) (entry : MemoryEntry) :
    Option ℚ :=
  let parts := lexicalParts terms entry.text entry.tags
  let lexical_hits := parts.1
  let bm25_local := parts.2
  let vector_score : ℚ :=
    match query_embedding, entry.embedding with
    | some qv, some dv => F.cos qv dv
    | _, _ => 0
  if lexical_hits ≤ 0 ∧ bm25_local ≤ 0 ∧ vector_score ≤ 0 then none
  else
    let lexical := if terms.isEmpty then 0 else lexical_hits / (terms.length : ℚ)
    let bm25_norm := if terms.isEmpty then 0 else bm25_local / (terms.length : ℚ)
    let lexical_base := (65/100) * bm25_norm + (35/100) * lexical
    let score :=
      if query_embedding.isSome then
        lw * lexical_base + vw * ((vector_score + 1) / 2)
      else lexical_base
    let score := applyRecencyBoost score now entry.timestamp_ms
    let score := applyImportanceWeight score entry.importance
    let score := applyLengthNorm F score entry.text.length
    some score

/-- Minimum of the bounded heap, by the `RankedItem` ordering
(`total_cmp` on the score, then the index). -/
def heapMin : List RankedItem → Option RankedItem
  | [] => none
  | x :: rest =>
    match heapMin rest with
    | none => some x
    | some m =>
      if x.score < m.score ∨ (x.score = m.score ∧ x.idx < m.idx) then some x
      else some m

/-- Push onto the bounded min-heap of capacity `cap` (`recall_entries` lines
550-558): fill until `cap`, then replace the minimum when the new score is
strictly higher. -/
def heapPushCap (cap : ℕ) (heap : List RankedItem) (item : RankedItem) :
    List RankedItem :=
  if heap.length < cap then item :: heap
  else
    match heapMin heap with
    | none => heap
    | some m => if item.score > m.score then item :: heap.erase m else heap

/-- The candidate loop of `recall_entries` (lines 499-560): anchor pruning,
scoring, the `0.12` floor and the bounded heap. -/
def rankCandidates (F : FloatOracle) (now : ℕ) (terms : List (List Char))
    (query_embedding : Option (List ℚ)) (vw lw : ℚ) (cap : ℕ)
    (candidates : List (ℕ × MemoryEntry)) :
    List RankedItem :=
  candidates.foldl
    (fun heap (c : ℕ × MemoryEntry) =>
      let idx := c.1
      let entry := c.2
      if !query_embedding.isSome &&
          (match terms.head? with
            | some a => !listContainsSeg a entry.text.toList
            | none => false) then heap
      else
        match scoreCandidate F now terms query_embedding vw lw entry with
        | none => heap
        | some score =>
          if score ≥ 12/100 then heapPushCap cap heap ⟨idx, score⟩ else heap)
    []

/-- Descending order on ranked items (score first, index as the
deterministic tie-break standing in for the unspecified heap drain order). -/
def rankedGE (a b : RankedItem) : Prop :=
  b.score < a.score ∨ (a.score = b.score ∧ a.idx ≤ b.idx)

instance : DecidableRel rankedGE := by
  unfold rankedGE; infer_instance

instance : IsTotal RankedItem rankedGE := by
  constructor
  intro a b
  rcases lt_trichotomy a.score b.score with h | h | h
  · exact .inr (.inl h)
  · rcases Nat.le_total a.idx b.idx with h2 | h2
    · exact .inl (.inr ⟨h, h2⟩)
    · exact .inr (.inr ⟨h.symm, h2⟩)
  · exact .inl (.inl h)

instance : IsTrans RankedItem rankedGE := by
  constructor
  intro a b c hab hbc
  rcases hab with h1 | ⟨h1, h1i⟩
  · rcases hbc with h2 | ⟨h2, _⟩
    · exact .inl (h2.trans h1)
    · exact .inl (h2 ▸ h1)
  · rcases hbc with h2 | ⟨h2, h2i⟩
    · exact .inl (h1 ▸ h2)
    · exact .inr ⟨h1.trans h2, h1i.trans h2i⟩

/-- The descending sort of the drained heap (`recall_entries` lines 562-566). -/
def sortRankedDesc (l : List RankedItem) : List RankedItem :=
  l.insertionSort rankedGE

/-- The dedup-and-truncate output loop of `recall_entries` (lines 568-585):
emit ranked entries in order, skipping already-seen content signatures, until
`limit` results stand. -/
def dedupTake : ℕ → List (MemoryEntry × ℚ) →
    List (String × String × List Char) → List RecallResult
  | _, [], _ => []
  | budget, (e, s) :: rest, seen =>
    if signature e ∈ seen then dedupTake budget rest seen
    else if budget ≤ 1 then [⟨e, s⟩]
    else ⟨e, s⟩ :: dedupTake (budget - 1) rest (signature e :: seen)

/-- Embedding of `recall_entries`. -/
def recallEntries (F : FloatOracle) (now : ℕ) (entries : List MemoryEntry)
    (query : RecallQuery) : List RecallResult :=
  let terms := tokenize query.query
  let limit := nclamp query.limit 1 50
  let has_vector := query.query_embedding.isSome
  if terms.isEmpty ∧ ¬has_vector then []
  else
    let vector_weight := rclamp (query.vector_weight.getD (6/10)) 0 1
    let lexical_weight := rclamp (query.lexical_weight.getD (1 - vector_weight)) 0 1
    let candidates := entries.enum.filter
      (fun c =>
        (match query.scope with
          | some sc => c.2.scope == sc
          | none => true) &&
        (match query.category with
          | some cat => c.2.category == cat
          | none => true))
    if candidates.isEmpty then []
    else
      let cap := nclamp (limit * 4) 16 96
      let heap := rankCandidates F now terms query.query_embedding
        vector_weight lexical_weight cap candidates
      let ranked := sortRankedDesc heap
      let pairs := ranked.filterMap
        (fun it => (entries.get? it.idx).map (fun e => (e, it.score)))
      dedupTake limit pairs []

/-! Monotonicity lemmas for the scorer. -/

theorem rclamp_lower {lo hi : ℚ} (h : lo ≤ hi) (x : ℚ) : lo ≤ rclamp x lo hi := by
  unfold rclamp
  split_ifs with h1 h2
  · exact le_refl lo
  · exact h
  · exact le_of_not_lt h1

theorem rclamp_mono {lo hi : ℚ} (h : lo ≤ hi) {x y : ℚ} (hxy : x ≤ y) :
    rclamp x lo hi ≤ rclamp y lo hi := by
  unfold rclamp
  split_ifs with h1 h2 h3 h4 h5 <;> try linarith

theorem lexicalParts_fold_ge (terms : List (List Char)) (text : String)
    (tags : List String) (acc : ℚ × ℚ) :
    acc.1 ≤ (terms.foldl
      (fun acc term =>
        let tf := termFrequency text term
        if tf ≤ 0 then acc
        else
          let k1 : ℚ := 12/10
          let b : ℚ := 3/4
          let avg_anchor : ℚ := 32
          let denom := tf + k1 * (1 - b + b * (approxDocLen text tags / avg_anchor))
          (acc.1 + 1, acc.2 + (tf * (k1 + 1)) / rmax denom (1/1000000)))
      acc).1 ∧
    acc.2 ≤ (terms.foldl
      (fun acc term =>
        let tf := termFrequency text term
        if tf ≤ 0 then acc
        else
          let k1 : ℚ := 12/10
          let b : ℚ := 3/4
          let avg_anchor : ℚ := 32
          let denom := tf + k1 * (1 - b + b * (approxDocLen text tags / avg_anchor))
          (acc.1 + 1, acc.2 + (tf * (k1 + 1)) / rmax denom (1/1000000)))
      acc).2 := by
  induction terms generalizing acc with
  | nil => exact ⟨le_refl _, le_refl _⟩
  | cons t rest ih =>
    simp only [List.foldl_cons]
    by_cases h : termFrequency text t ≤ 0
    · simpa only [if_pos h] using ih acc
    · rw [if_neg h]
      have hd : (0:ℚ) < rmax (termFrequency text t +
          (12/10) * (1 - 3/4 + 3/4 * (approxDocLen text tags / 32))) (1/1000000) := by
        unfold rmax
        split_ifs with hm
        · norm_num
        · push_neg at hm
          linarith
      have hstep : (0:ℚ) ≤ (termFrequency text t * (12/10 + 1)) /
          rmax (termFrequency text t +
            (12/10) * (1 - 3/4 + 3/4 * (approxDocLen text tags / 32))) (1/1000000) := by
        apply div_nonneg
        · have : (0:ℚ) ≤ termFrequency text t := le_of_lt (lt_of_not_le h)
          positivity
        · exact le_of_lt hd
      have := ih (acc.1 + 1, acc.2 + (termFrequency text t * (12/10 + 1)) /
        rmax (termFrequency text t +
          (12/10) * (1 - 3/4 + 3/4 * (approxDocLen text tags / 32))) (1/1000000))
      constructor
      · exact le_trans (by linarith) this.1
      · exact le_trans (by linarith) this.2

theorem lexicalParts_nonneg (terms : List (List Char)) (text : String)
    (tags : List String) :
    0 ≤ (lexicalParts terms text tags).1 ∧ 0 ≤ (lexicalParts terms text tags).2 :=
  lexicalParts_fold_ge terms text tags (0, 0)

/-- The `lexical_base` of a candidate with no query vector. -/
def lexBase (terms : List (List Char)) (text : String) (tags : List String) : ℚ :=
  let parts := lexicalParts terms text tags
  let lexical := if terms.isEmpty then 0 else parts.1 / (terms.length : ℚ)
  let bm25_norm := if terms.isEmpty then 0 else parts.2 / (terms.length : ℚ)
  (65/100) * bm25_norm + (35/100) * lexical

theorem lexBase_nonneg (terms : List (List Char)) (text : String)
    (tags : List String) : 0 ≤ lexBase terms text tags := by
  obtain ⟨h1, h2⟩ := lexicalParts_nonneg terms text tags
  unfold lexBase
  by_cases he : terms.isEmpty
  · simp only [he, if_pos, if_true]
    norm_num
  · simp only [he, if_false, if_neg, Bool.false_eq_true, not_false_iff]
    have hn : (0:ℚ) ≤ (terms.length : ℚ) := by positivity
    have := div_nonneg h1 hn
    have := div_nonneg h2 hn
    positivity

theorem scoreCandidate_shape (F : FloatOracle) (now : ℕ)
    (terms : List (List Char)) (vw lw : ℚ) (e : MemoryEntry) :
    scoreCandidate F now terms none vw lw e =
      if (lexicalParts terms e.text e.tags).1 ≤ 0 ∧
          (lexicalParts terms e.text e.tags).2 ≤ 0 ∧ (0:ℚ) ≤ 0 then none
      else some (applyLengthNorm F
        (applyImportanceWeight
          (applyRecencyBoost (lexBase terms e.text e.tags) now e.timestamp_ms)
          e.importance)
        e.text.length) := rfl

theorem recencyBoost_nonneg (now ts : ℕ) : (0:ℚ) ≤ (1/10) / (1 + ((now - ts : ℕ) : ℚ) / (1000 * 60 * 60 * 24) / 14) := by
  have hage : (0:ℚ) ≤ ((now - ts : ℕ) : ℚ) := by positivity
  have : (0:ℚ) < 1 + ((now - ts : ℕ) : ℚ) / (1000 * 60 * 60 * 24) / 14 := by positivity
  positivity

theorem applyRecencyBoost_nonneg {s : ℚ} (hs : 0 ≤ s) (now ts : ℕ) :
    0 ≤ applyRecencyBoost s now ts := by
  unfold applyRecencyBoost
  have := recencyBoost_nonneg now ts
  linarith

theorem applyRecencyBoost_mono_ts {s : ℚ} (now : ℕ) {ts1 ts2 : ℕ}
    (h : ts1 ≤ ts2) :
    applyRecencyBoost s now ts1 ≤ applyRecencyBoost s now ts2 := by
  show (s + (1/10) / (1 + ((now - ts1 : ℕ) : ℚ) / (1000 * 60 * 60 * 24) / 14)) ≤
    (s + (1/10) / (1 + ((now - ts2 : ℕ) : ℚ) / (1000 * 60 * 60 * 24) / 14))
  have hage : ((now - ts2 : ℕ) : ℚ) ≤ ((now - ts1 : ℕ) : ℚ) := by
    exact_mod_cast Nat.sub_le_sub_left h now
  have h2 : (0:ℚ) < 1 + ((now - ts2 : ℕ) : ℚ) / (1000 * 60 * 60 * 24) / 14 := by
    have : (0:ℚ) ≤ ((now - ts2 : ℕ) : ℚ) := by positivity
    positivity
  have hd : 1 + ((now - ts2 : ℕ) : ℚ) / (1000 * 60 * 60 * 24) / 14 ≤
      1 + ((now - ts1 : ℕ) : ℚ) / (1000 * 60 * 60 * 24) / 14 := by
    have h24 : (0:ℚ) < 1000 * 60 * 60 * 24 := by norm_num
    have hstep : ((now - ts2 : ℕ) : ℚ) / (1000 * 60 * 60 * 24) ≤
        ((now - ts1 : ℕ) : ℚ) / (1000 * 60 * 60 * 24) :=
      (div_le_div_iff_of_pos_right h24).mpr hage
    have hstep2 := (div_le_div_iff_of_pos_right (by norm_num : (0:ℚ) < 14)).mpr hstep
    linarith
  have hinv := one_div_le_one_div_of_le h2 hd
  rw [div_eq_mul_one_div ((1:ℚ)/10), div_eq_mul_one_div ((1:ℚ)/10)]
  have := mul_le_mul_of_nonneg_left hinv (by norm_num : (0:ℚ) ≤ 1/10)
  linarith

theorem importance_factor_nonneg (imp : ℚ) :
    0 ≤ 7/10 + 3/10 * rclamp imp 0 1 := by
  have := rclamp_lower (by norm_num : (0:ℚ) ≤ 1) imp
  linarith

theorem applyImportanceWeight_mono_imp {s : ℚ} (hs : 0 ≤ s) {i1 i2 : ℚ}
    (h : i1 ≤ i2) :
    applyImportanceWeight s i1 ≤ applyImportanceWeight s i2 := by
  unfold applyImportanceWeight
  have hc := rclamp_mono (by norm_num : (0:ℚ) ≤ 1) h
  have : 7/10 + 3/10 * rclamp i1 0 1 ≤ 7/10 + 3/10 * rclamp i2 0 1 := by linarith
  exact mul_le_mul_of_nonneg_left this hs

theorem applyImportanceWeight_mono_score {s1 s2 : ℚ} (h : s1 ≤ s2) (imp : ℚ) :
    applyImportanceWeight s1 imp ≤ applyImportanceWeight s2 imp := by
  unfold applyImportanceWeight
  exact mul_le_mul_of_nonneg_right h (importance_factor_nonneg imp)

theorem applyLengthNorm_mono (F : FloatOracle) {x y : ℚ} (h : x ≤ y)
    (len : ℕ) : applyLengthNorm F x len ≤ applyLengthNorm F y len := by
  unfold applyLengthNorm
  by_cases hl : len ≤ 500
  · rw [if_pos hl, if_pos hl]
    exact h
  · rw [if_neg hl, if_neg hl]
    exact mul_le_mul_of_nonneg_right h
      (le_trans (by norm_num) (rclamp_lower (by norm_num : (2:ℚ)/5 ≤ 1) _))

/-- C7: with no query vector, the recall score is monotone in importance when
all other scoring features (text, tags, timestamp) are equal, and monotone in
recency (timestamp) when all other features are equal.  Stated on the
per-candidate scorer of `recall_entries`; `Option.getD 0` reads the score
(both entries are skipped, or both scored, since their skip conditions
coincide). -/
theorem c7_score_monotonicity :
    ∀ (F : FloatOracle) (now : ℕ) (terms : List (List Char)) (vw lw : ℚ)
      (e1 e2 : MemoryEntry),
      e1.text = e2.text → e1.tags = e2.tags →
      ((e1.timestamp_ms = e2.timestamp_ms → e1.importance ≤ e2.importance →
        (scoreCandidate F now terms none vw lw e1).getD 0 ≤
          (scoreCandidate F now terms none vw lw e2).getD 0) ∧
       (e1.importance = e2.importance → e1.timestamp_ms ≤ e2.timestamp_ms →
        (scoreCandidate F now terms none vw lw e1).getD 0 ≤
          (scoreCandidate F now terms none vw lw e2).getD 0)) := by
  intro F now terms vw lw e1 e2 ht htag
  rw [scoreCandidate_shape, scoreCandidate_shape, ht, htag]
  by_cases hskip : (lexicalParts terms e2.text e2.tags).1 ≤ 0 ∧
      (lexicalParts terms e2.text e2.tags).2 ≤ 0 ∧ (0:ℚ) ≤ 0
  · rw [if_pos hskip, if_pos hskip]
    exact ⟨fun _ _ => le_refl _, fun _ _ => le_refl _⟩
  · rw [if_neg hskip, if_neg hskip]
    have hbase : 0 ≤ lexBase terms e2.text e2.tags := lexBase_nonneg _ _ _
    constructor
    · intro hts himp
      rw [hts]
      simp only [Option.getD_some]
      apply applyLengthNorm_mono
      exact applyImportanceWeight_mono_imp
        (applyRecencyBoost_nonneg hbase now e2.timestamp_ms) himp
    · intro himp hts
      rw [himp]
      simp only [Option.getD_some]
      apply applyLengthNorm_mono
      exact applyImportanceWeight_mono_score
        (applyRecencyBoost_mono_ts now hts) e2.importance

/-- C7 witness: two concrete entries identical except in importance, and two
identical except in timestamp; the scorer ranks the higher-importance and the
more recent one at least as high. -/
theorem c7_witness :
    (scoreCandidate ⟨fun _ _ => 0, fun _ => 0⟩ 100 (tokenize "alpha") none
        (6/10) (4/10)
        ⟨"mem-1", "alpha beta", "fact", "global", 1/4, ["domain:d"], 50, none⟩).getD 0 ≤
      (scoreCandidate ⟨fun _ _ => 0, fun _ => 0⟩ 100 (tokenize "alpha") none
        (6/10) (4/10)
        ⟨"mem-2", "alpha beta", "fact", "global", 3/4, ["domain:d"], 50, none⟩).getD 0 ∧
    (scoreCandidate ⟨fun _ _ => 0, fun _ => 0⟩ 100 (tokenize "alpha") none
        (6/10) (4/10)
        ⟨"mem-1", "alpha beta", "fact", "global", 1/2, ["domain:d"], 10, none⟩).getD 0 ≤
      (scoreCandidate ⟨fun _ _ => 0, fun _ => 0⟩ 100 (tokenize "alpha") none
        (6/10) (4/10)
        ⟨"mem-2", "alpha beta", "fact", "global", 1/2, ["domain:d"], 90, none⟩).getD 0 := by
  constructor
  · exact (c7_score_monotonicity ⟨fun _ _ => 0, fun _ => 0⟩ 100 (tokenize "alpha")
      (6/10) (4/10)
      ⟨"mem-1", "alpha beta", "fact", "global", 1/4, ["domain:d"], 50, none⟩
      ⟨"mem-2", "alpha beta", "fact", "global", 3/4, ["domain:d"], 50, none⟩
      rfl rfl).1 rfl (by norm_num)
  · exact (c7_score_monotonicity ⟨fun _ _ => 0, fun _ => 0⟩ 100 (tokenize "alpha")
      (6/10) (4/10)
      ⟨"mem-1", "alpha beta", "fact", "global", 1/2, ["domain:d"], 10, none⟩
      ⟨"mem-2", "alpha beta", "fact", "global", 1/2, ["domain:d"], 90, none⟩
      rfl rfl).2 rfl (by norm_num)

/-! Lemmas for the recall-contract claim. -/

theorem nclamp_lower_one (x : ℕ) : 1 ≤ nclamp x 1 50 := by
  unfold nclamp
  split_ifs <;> omega

theorem dedupTake_length_le (l : List (MemoryEntry × ℚ))
    (n : ℕ) (hn : 1 ≤ n) (seen : List (String × String × List Char)) :
    (dedupTake n l seen).length ≤ n := by
  induction l generalizing n seen with
  | nil => simp [dedupTake]
  | cons p rest ih =>
    obtain ⟨e, s⟩ := p
    rw [dedupTake]
    by_cases h1 : signature e ∈ seen
    · rw [if_pos h1]
      exact ih n hn seen
    · rw [if_neg h1]
      by_cases h2 : n ≤ 1
      · rw [if_pos h2]
        simpa using hn
      · rw [if_neg h2]
        have := ih (n - 1) (by omega) (signature e :: seen)
        simp only [List.length_cons]
        omega

theorem dedupTake_sublist (l : List (MemoryEntry × ℚ)) (n : ℕ)
    (seen : List (String × String × List Char)) :
    (dedupTake n l seen).Sublist
      (l.map (fun p => RecallResult.mk p.1 p.2)) := by
  induction l generalizing n seen with
  | nil => simp [dedupTake]
  | cons p rest ih =>
    obtain ⟨e, s⟩ := p
    rw [dedupTake]
    by_cases h1 : signature e ∈ seen
    · rw [if_pos h1]
      exact (ih n seen).cons _
    · rw [if_neg h1]
      by_cases h2 : n ≤ 1
      · rw [if_pos h2]
        exact (List.nil_sublist _).cons₂ _
      · rw [if_neg h2]
        exact (ih (n - 1) _).cons₂ _

theorem dedupTake_sig_notin (l : List (MemoryEntry × ℚ)) (n : ℕ)
    (seen : List (String × String × List Char)) :
    ∀ r ∈ dedupTake n l seen, signature r.entry ∉ seen := by
  induction l generalizing n seen with
  | nil => simp [dedupTake]
  | cons p rest ih =>
    obtain ⟨e, s⟩ := p
    rw [dedupTake]
    by_cases h1 : signature e ∈ seen
    · rw [if_pos h1]
      exact ih n seen
    · rw [if_neg h1]
      by_cases h2 : n ≤ 1
      · rw [if_pos h2]
        intro r hr
        rcases List.mem_singleton.mp hr with rfl
        exact h1
      · rw [if_neg h2]
        intro r hr
        rcases List.mem_cons.mp hr with rfl | hr2
        · exact h1
        · have := ih (n - 1) (signature e :: seen) r hr2
          exact fun hx => this (List.mem_cons_of_mem _ hx)

theorem dedupTake_sig_pairwise (l : List (MemoryEntry × ℚ)) (n : ℕ)
    (seen : List (String × String × List Char)) :
    (dedupTake n l seen).Pairwise
      (fun a b => signature a.entry ≠ signature b.entry) := by
  induction l generalizing n seen with
  | nil => simp [dedupTake]
  | cons p rest ih =>
    obtain ⟨e, s⟩ := p
    rw [dedupTake]
    by_cases h1 : signature e ∈ seen
    · rw [if_pos h1]
      exact ih n seen
    · rw [if_neg h1]
      by_cases h2 : n ≤ 1
      · rw [if_pos h2]
        exact List.pairwise_singleton _ _
      · rw [if_neg h2]
        rw [List.pairwise_cons]
        refine ⟨?_, ih (n - 1) (signature e :: seen)⟩
        intro b hb
        have := dedupTake_sig_notin rest (n - 1) (signature e :: seen) b hb
        intro he
        exact this (he ▸ List.mem_cons_self _ _)

theorem pairwise_filterMap_of {α β : Type} {r : α → α → Prop}
    {r' : β → β → Prop} (f : α → Option β)
    (hf : ∀ a b x y, r a b → f a = some x → f b = some y → r' x y)
    {l : List α} (h : l.Pairwise r) : (l.filterMap f).Pairwise r' := by
  induction l with
  | nil => simp
  | cons a rest ih =>
    rcases List.pairwise_cons.mp h with ⟨ha, hrest⟩
    rw [List.filterMap_cons]
    cases hfa : f a with
    | none => exact ih hrest
    | some x =>
      rw [List.pairwise_cons]
      refine ⟨?_, ih hrest⟩
      intro y hy
      rcases List.mem_filterMap.mp hy with ⟨b, hb, hfb⟩
      exact hf a b x y (ha b hb) hfa hfb

/-- The clamped effective limit of a recall. -/
def recallLimit (q : RecallQuery) : ℕ :=
  nclamp q.limit 1 50

/-- The scope/category candidate filter of `recall_entries`. -/
def recallCandidates (entries : List MemoryEntry) (q : RecallQuery) :
    List (ℕ × MemoryEntry) :=
  entries.enum.filter
    (fun c =>
      (match q.scope with
        | some sc => c.2.scope == sc
        | none => true) &&
      (match q.category with
        | some cat => c.2.category == cat
        | none => true))

/-- The ranked `(entry, score)` pairs of a recall, before dedup/truncation. -/
def recallPairs (F : FloatOracle) (now : ℕ) (entries : List MemoryEntry)
    (q : RecallQuery) : List (MemoryEntry × ℚ) :=
  (sortRankedDesc (rankCandidates F now (tokenize q.query) q.query_embedding
      (rclamp (q.vector_weight.getD (6/10)) 0 1)
      (rclamp (q.lexical_weight.getD (1 - rclamp (q.vector_weight.getD (6/10)) 0 1)) 0 1)
      (nclamp (recallLimit q * 4) 16 96)
      (recallCandidates entries q))).filterMap
    (fun it => (entries.get? it.idx).map (fun e => (e, it.score)))

theorem recallEntries_shape (F : FloatOracle) (now : ℕ)
    (entries : List MemoryEntry) (q : RecallQuery) :
    recallEntries F now entries q =
      if (tokenize q.query).isEmpty ∧ ¬ (q.query_embedding.isSome = true) then []
      else if (recallCandidates entries q).isEmpty then []
      else dedupTake (recallLimit q) (recallPairs F now entries q) [] := rfl

/-- C3 counterexample: `recall_entries` clamps the requested limit below by 1,
so a query with `limit = 0` can return one result — refuting the unqualified
"returns at most `limit` pairs". -/
theorem c3_counterexample :
    (recallEntries ⟨fun _ _ => 0, fun _ => 0⟩ 5
        [⟨"mem-1", "alpha", "fact", "global", 1/2, [], 5, none⟩]
        ⟨"alpha", none, none, none, 0, none, none⟩).length = 1 ∧
      (⟨"alpha", none, none, none, 0, none, none⟩ : RecallQuery).limit = 0 := by
  constructor
  · with_unfolding_all decide
  · rfl

/-- C3 (amended): every recall returns at most `clamp(limit, 1, 50)` (entry,
score) pairs — equivalently at most `limit` pairs whenever `limit ≥ 1` —
sorted by score descending and de-duplicated by content signature (category,
scope, first 120 characters of text, keeping the first and hence
highest-scored occurrence); and a query that tokenizes to zero tokens with no
query embedding returns the empty list. -/
theorem c3_recall_contract_amended :
    ∀ (F : FloatOracle) (now : ℕ) (entries : List MemoryEntry) (q : RecallQuery),
      (recallEntries F now entries q).length ≤ recallLimit q ∧
      (recallEntries F now entries q).Pairwise (fun a b => b.score ≤ a.score) ∧
      (recallEntries F now entries q).Pairwise
        (fun a b => signature a.entry ≠ signature b.entry) ∧
      (tokenize q.query = [] → q.query_embedding = none →
        recallEntries F now entries q = []) := by
  intro F now entries q
  rw [recallEntries_shape]
  by_cases h1 : (tokenize q.query).isEmpty ∧ ¬ (q.query_embedding.isSome = true)
  · rw [if_pos h1]
    exact ⟨Nat.zero_le _, by simp, by simp, fun _ _ => rfl⟩
  · rw [if_neg h1]
    by_cases h2 : (recallCandidates entries q).isEmpty
    · rw [if_pos h2]
      refine ⟨Nat.zero_le _, by simp, by simp, ?_⟩
      intro htok hemb
      exact absurd ⟨by simp [htok], by simp [hemb]⟩ h1
    · rw [if_neg h2]
      have hsorted : (sortRankedDesc (rankCandidates F now (tokenize q.query)
          q.query_embedding
          (rclamp (q.vector_weight.getD (6/10)) 0 1)
          (rclamp (q.lexical_weight.getD
            (1 - rclamp (q.vector_weight.getD (6/10)) 0 1)) 0 1)
          (nclamp (recallLimit q * 4) 16 96)
          (recallCandidates entries q))).Pairwise rankedGE :=
        List.sorted_insertionSort rankedGE _
      have hpairs : (recallPairs F now entries q).Pairwise
          (fun (x y : MemoryEntry × ℚ) => y.2 ≤ x.2) := by
        refine pairwise_filterMap_of _ ?_ hsorted
        intro a b x y hr hfa hfb
        cases hga : entries.get? a.idx with
        | none => rw [hga] at hfa; exact absurd hfa (by simp)
        | some ea =>
          cases hgb : entries.get? b.idx with
          | none => rw [hgb] at hfb; exact absurd hfb (by simp)
          | some eb =>
            rw [hga, Option.map_some'] at hfa
            rw [hgb, Option.map_some'] at hfb
            cases hfa
            cases hfb
            rcases hr with h | ⟨h, _⟩
            · exact le_of_lt h
            · exact le_of_eq h.symm
      refine ⟨dedupTake_length_le _ _ (nclamp_lower_one _) _, ?_,
        dedupTake_sig_pairwise _ _ _, ?_⟩
      · have hmap : ((recallPairs F now entries q).map
            (fun p => RecallResult.mk p.1 p.2)).Pairwise
            (fun a b => b.score ≤ a.score) :=
          (List.pairwise_map).mpr hpairs
        exact hmap.sublist (dedupTake_sublist _ _ _)
      · intro htok hemb
        exact absurd ⟨by simp [htok], by simp [hemb]⟩ h1

/-- C3 witness: the amended contract instantiated on a concrete two-entry
store and a concrete query. -/
theorem c3_witness :
    (recallEntries ⟨fun _ _ => 0, fun _ => 0⟩ 5
        [⟨"mem-1", "alpha beta", "fact", "global", 1/2, [], 5, none⟩,
         ⟨"mem-2", "alpha gamma", "fact", "global", 1/2, [], 5, none⟩]
        ⟨"alpha", none, none, none, 3, none, none⟩).length ≤
      recallLimit ⟨"alpha", none, none, none, 3, none, none⟩ ∧
    (recallEntries ⟨fun _ _ => 0, fun _ => 0⟩ 5
        [⟨"mem-1", "alpha beta", "fact", "global", 1/2, [], 5, none⟩,
         ⟨"mem-2", "alpha gamma", "fact", "global", 1/2, [], 5, none⟩]
        ⟨"alpha", none, none, none, 3, none, none⟩).Pairwise
      (fun a b => b.score ≤ a.score) ∧
    recallEntries ⟨fun _ _ => 0, fun _ => 0⟩ 5
        [⟨"mem-1", "alpha beta", "fact", "global", 1/2, [], 5, none⟩,
         ⟨"mem-2", "alpha gamma", "fact", "global", 1/2, [], 5, none⟩]
        ⟨"", none, none, none, 3, none, none⟩ = [] := by
  have h := c3_recall_contract_amended ⟨fun _ _ => 0, fun _ => 0⟩ 5
    [⟨"mem-1", "alpha beta", "fact", "global", 1/2, [], 5, none⟩,
     ⟨"mem-2", "alpha gamma", "fact", "global", 1/2, [], 5, none⟩]
    ⟨"alpha", none, none, none, 3, none, none⟩
  have h2 := c3_recall_contract_amended ⟨fun _ _ => 0, fun _ => 0⟩ 5
    [⟨"mem-1", "alpha beta", "fact", "global", 1/2, [], 5, none⟩,
     ⟨"mem-2", "alpha gamma", "fact", "global", 1/2, [], 5, none⟩]
    ⟨"", none, none, none, 3, none, none⟩
  exact ⟨h.1, h.2.1, h2.2.2.2 (by with_unfolding_all rfl) rfl⟩

/-!
Write pipeline, from `crates/prx-memory-mcp/src/server.rs`: the scope/ACL
manager (lines 3336-3458), governance validation (3994-4041), `compact_query`
(4043-4059), `decision_ratio_in_scope` (4061-4079), `filter_entries_by_acl`
(4148-4165), periodic maintenance (3553-3668), `store_layer_with_rules`
(3461-3551) and the core of `exec_memory_store_dual` (1407-1463).  The
storage backend is the in-memory JSON store of
`crates/prx-memory-storage/src/lib.rs` (lines 89-212) with the file
persistence dropped (it is invisible to these claims); `now_ms()` and
`embed_one` are explicit parameters.  String primitives are re-implemented on
character lists so that concrete runs reduce in the kernel.
-/

/-- Rust `str::trim` (ASCII whitespace). -/
def trimChars (cs : List Char) : List Char :=
  ((cs.dropWhile Char.isWhitespace).reverse.dropWhile Char.isWhitespace).reverse

/-- Rust `str::trim` for `String`. -/
def strTrim (s : String) : String :=
  ⟨trimChars s.toList⟩

/-- Rust `str::starts_with` for `String`. -/
def strStarts (s pat : String) : Bool :=
  pat.toList.isPrefixOf s.toList

/-- Rust `str::replace` (leftmost non-overlapping occurrences; the callers
only ever pass non-empty patterns). -/
def replaceAll (s pat rep : List Char) : List Char :=
  if pat.isEmpty then s
  else
    match s with
    | [] => []
    | c :: rest =>
      if pat.isPrefixOf (c :: rest) then
        rep ++ replaceAll ((c :: rest).drop pat.length) pat rep
      else
        c :: replaceAll rest pat rep
termination_by s.length
decreasing_by
  · simp only [List.length_cons, List.length_drop]
    have : 1 ≤ pat.length := by
      cases pat with
      | nil => simp at *
      | cons a l => simp
    omega
  · simp

/-- Rust `str::replace` for `String`. -/
def strReplace (s pat rep : String) : String :=
  ⟨replaceAll s.toList pat.toList rep.toList⟩

/-- Rust `Vec<String>::join(" ")` on token lists. -/
def joinSpace : List (List Char) → List Char
  | [] => []
  | [t] => t
  | t :: rest => t ++ ' ' :: joinSpace rest

/-- The dedup-and-cap loop of `compact_query`: keep the first occurrence of
each token until `max_terms` tokens stand. -/
def compactLoop (budget : ℕ) (seen : List (List Char)) :
    List (List Char) → List (List Char)
  | [] => []
  | t :: rest =>
    if t ∈ seen then compactLoop budget seen rest
    else if budget ≤ 1 then [t]
    else t :: compactLoop (budget - 1) (t :: seen) rest

/-- Embedding of `compact_query`: the first `max_terms` distinct lowercase
alphanumeric tokens of length at least 3, joined by spaces. -/
def compactQuery (text : String) (max_terms : ℕ) : String :=
  ⟨joinSpace (compactLoop max_terms []
    (((alnumRuns text.toList).filter (fun t => 3 ≤ t.length)).map
      (List.map Char.toLower)))⟩

/-- Embedding of `ScopeManager`. -/
structure ScopeManager where
  agent_id : String
  default_scope : String
  allowed_scope_rules : List String
  agent_access : List (String × List String)
deriving DecidableEq

/-- Embedding of `ScopeManager::accessible_scope_rules`. -/
def accessibleScopeRules (sm : ScopeManager) : List String :=
  match List.lookup sm.agent_id sm.agent_access with
  | some scopes =>
    let expanded := (scopes.map
      (fun s => strReplace s "\x7bagent_id\x7d" sm.agent_id)).filter
      (fun s => s ≠ "")
    if !expanded.isEmpty then expanded else sm.allowed_scope_rules
  | none => sm.allowed_scope_rules

/-- Embedding of `ScopeManager::is_valid_scope`. -/
def isValidScope (scope : String) : Bool :=
  scope == "global" || strStarts scope "agent:" || strStarts scope "custom:" ||
    strStarts scope "project:" || strStarts scope "user:"

/-- Embedding of `ScopeManager::rule_matches_scope`. -/
def ruleMatchesScope (rule scope : String) : Bool :=
  if rule == "*" then true
  else
    match rule.toList.getLast? with
    | some '*' => rule.toList.dropLast.isPrefixOf scope.toList
    | _ => rule == scope

/-- Embedding of `ScopeManager::can_access_scope`. -/
def canAccessScope (sm : ScopeManager) (scope : String) : Bool :=
  isValidScope scope &&
    (accessibleScopeRules sm).any (fun rule => ruleMatchesScope rule scope)

/-- Embedding of `ScopeManager::validate_scope_write`. -/
def validateScopeWrite (sm : ScopeManager) (scope : String)
    (tags : List String) : Option String :=
  if strStarts scope "agent:" then
    let own := "agent:" ++ sm.agent_id
    if scope ≠ own then
      let cross_domain := tags.any (fun t =>
        let lower := strLower t
        lower == "cross-domain" || lower == "root-cause:cross-domain")
      if !cross_domain then
        some "agent cannot write to other agent scope without cross-domain tag"
      else none
    else none
  else none

/-- Embedding of `validate_governed_input`. -/
def validateGovernedInput (text category : String) (tags : List String)
    (importance_level : String) : Except String Unit :=
  if strTrim text == "" then .error "text cannot be empty"
  else if text.length > 500 then .error "entry must be <= 500 chars"
  else if strContains text "```" || strContains text "stacktrace" ||
      strContains text "raw conversation" then
    .error "log-like or raw content is not allowed"
  else
    let cat := strLower category
    if !(cat == "preference" || cat == "fact" || cat == "decision" ||
        cat == "entity" || cat == "other") then
      .error "category must be one of preference|fact|decision|entity|other"
    else if tags.isEmpty then .error "tags are required in governed mode"
    else
      let has_project := tags.any (fun t => strStarts t "project:")
      let has_tool := tags.any (fun t => strStarts t "tool:")
      let has_domain := tags.any (fun t => strStarts t "domain:")
      if !(has_project && has_tool && has_domain) then
        .error "tags must include project:*, tool:*, domain:*"
      else
        let lower := strLower text
        if cat == "fact" && !(strContains lower "pitfall:" &&
            strContains lower "cause:" && strContains lower "fix:" &&
            strContains lower "prevention:") then
          .error "fact entry must follow Pitfall/Cause/Fix/Prevention template"
        else if cat == "decision" && !strContains lower "decision principle" then
          .error "decision entry must follow Decision principle template"
        else if cat == "decision" && importance_level == "low" then
          .error "decision importance must be medium/high/critical"
        else .ok ()

/-- The in-memory storage backend (`PersistentMemoryStore` without the
file). -/
structure Store where
  entries : List MemoryEntry
  next_id : ℕ
deriving DecidableEq

/-- Embedding of `PersistentMemoryStore::list`: the newest `max(limit, 1)`
entries, newest first. -/
def storeList (s : Store) (limit : ℕ) : List MemoryEntry :=
  s.entries.reverse.take (max limit 1)

/-- The entry built by `PersistentMemoryStore::store`: fresh monotone id,
lowercased text and tags, clamped importance, current timestamp. -/
def mkStoredEntry (s : Store) (new : NewMemoryEntry) (now : ℕ) : MemoryEntry :=
  { id := "mem-" ++ toString s.next_id
    text := strLower new.text
    category := new.category
    scope := new.scope
    importance := rclamp new.importance 0 1
    tags := new.tags.map strLower
    timestamp_ms := now
    embedding := new.embedding }

/-- Embedding of `PersistentMemoryStore::store`. -/
def storeInsert (s : Store) (new : NewMemoryEntry) (now : ℕ) :
    Except String (MemoryEntry × Store) :=
  if strTrim new.text == "" then .error "text cannot be empty"
  else
    let entry := mkStoredEntry s new now
    .ok (entry, ⟨s.entries ++ [entry], s.next_id + 1⟩)

/-- Embedding of `PersistentMemoryStore::forget_by_id`. -/
def storeForget (s : Store) (id : String) : Bool × Store :=
  let kept := s.entries.filter (fun e => e.id ≠ id)
  (kept.length ≠ s.entries.length, ⟨kept, s.next_id⟩)

/-- Embedding of `PersistentMemoryStore::recall`. -/
def storeRecall (F : FloatOracle) (now : ℕ) (s : Store) (q : RecallQuery) :
    List RecallResult :=
  recallEntries F now s.entries q

/-- Embedding of `decision_ratio_in_scope`. -/
def decisionRatioInScope (s : Store) (scope : String) : ℚ :=
  let rows := storeList s 200000
  let total := (rows.filter (fun e => e.scope == scope)).length
  let decision := (rows.filter
    (fun e => e.scope == scope && e.category == "decision")).length
  if total = 0 then 0 else (decision : ℚ) / (total : ℚ)

/-- Embedding of `filter_entries_by_acl`. -/
def filterEntriesByAcl (entries : List MemoryEntry) (access : ScopeManager)
    (requested_scope requested_category : Option String) : List MemoryEntry :=
  (entries.filter
    (fun e => match requested_scope with
      | some scope => e.scope == scope
      | none => canAccessScope access e.scope)).filter
    (fun e => match requested_category with
      | some cat => e.category == cat
      | none => true)

/-- Embedding of `AutoMaintenanceReport`. -/
structure AutoMaintenanceReport where
  trigger_every : ℕ
  total_before : ℕ
  total_after : ℕ
  merged_groups : ℕ
  duplicate_deleted : ℕ
  rebalance_deleted : ℕ
  rebalance_scopes : List String
  notes : List String
deriving DecidableEq

/-- The duplicate-merge grouping key of periodic maintenance:
`"{scope}|{category}|{first-16-token compact signature}"` (braces shown for
the Rust format string). -/
def groupKey (row : MemoryEntry) : String :=
  row.scope ++ "|" ++ row.category ++ "|" ++ compactQuery row.text 16

/-- Append a row under its key, keeping first-key-occurrence order (a
deterministic refinement of the `HashMap` grouping, whose group processing
order does not affect the final store). -/
def addToGroups (groups : List (String × List MemoryEntry)) (key : String)
    (row : MemoryEntry) : List (String × List MemoryEntry) :=
  if groups.any (fun g => g.1 == key) then
    groups.map (fun g => if g.1 == key then (g.1, g.2 ++ [row]) else g)
  else groups ++ [(key, [row])]

/-- Group rows by the duplicate-merge key. -/
def groupRows (rows : List MemoryEntry) : List (String × List MemoryEntry) :=
  rows.foldl (fun gs row => addToGroups gs (groupKey row) row) []

/-- Group rows by scope (phase 2 of maintenance). -/
def groupRowsByScope (rows : List MemoryEntry) :
    List (String × List MemoryEntry) :=
  rows.foldl (fun gs row => addToGroups gs row.scope row) []

/-- Descending `(importance, timestamp)` order used to pick the survivor of a
duplicate group. -/
def maintGE (a b : MemoryEntry) : Prop :=
  b.importance < a.importance ∨
    (a.importance = b.importance ∧ b.timestamp_ms ≤ a.timestamp_ms)

instance : DecidableRel maintGE := by
  unfold maintGE; infer_instance

/-- Ascending `(importance, timestamp)` order used to pick rebalance
victims. -/
def maintLE (a b : MemoryEntry) : Prop :=
  a.importance < b.importance ∨
    (a.importance = b.importance ∧ a.timestamp_ms ≤ b.timestamp_ms)

instance : DecidableRel maintLE := by
  unfold maintLE; infer_instance

/-- Phase 1 of maintenance: delete every non-survivor of each duplicate
group, returning `(merged_groups, duplicate_deleted, store)`. -/
def dedupGroupsPass (s : Store) (groups : List (String × List MemoryEntry)) :
    ℕ × ℕ × Store :=
  groups.foldl
    (fun acc g =>
      if g.2.length ≤ 1 then acc
      else
        let ranked := g.2.insertionSort maintGE
        match ranked with
        | [] => (acc.1 + 1, acc.2.1, acc.2.2)
        | keep :: restr =>
          let r := restr.foldl
            (fun (acc2 : ℕ × Store) item =>
              if item.id == keep.id then acc2
              else
                let fr := storeForget acc2.2 item.id
                if fr.1 then (acc2.1 + 1, fr.2) else (acc2.1, fr.2))
            (acc.2.1, acc.2.2)
          (acc.1 + 1, r.1, r.2))
    (0, 0, s)

/-- The per-scope rebalance deletion loop: walk the ascending decision list,
deleting non-critical decisions while the ratio stays above 0.30.
State: `(store, decision_count, total, scope_deleted)`. -/
def rebalLoop : List MemoryEntry → Store → ℕ → ℕ → ℕ → Store × ℕ × ℕ × ℕ
  | [], st, dc, total, sd => (st, dc, total, sd)
  | item :: rest, st, dc, total, sd =>
    if (dc : ℚ) / (total : ℚ) ≤ 3/10 then (st, dc, total, sd)
    else if 1 ≤ item.importance then rebalLoop rest st dc total sd
    else
      let fr := storeForget st item.id
      if fr.1 then rebalLoop rest fr.2 (dc - 1) (total - 1) (sd + 1)
      else rebalLoop rest fr.2 dc total sd

/-- Phase 2 of maintenance over one scope: returns the updated store, the
deletions in this scope, and whether a still-above-ratio note is due. -/
def rebalanceScope (st : Store) (_scope : String) (rows : List MemoryEntry) :
    Store × ℕ × Bool :=
  let total := rows.length
  if total = 0 then (st, 0, false)
  else
    let decisions := rows.filter (fun e => e.category == "decision")
    let dc := decisions.length
    if dc = 0 then (st, 0, false)
    else if (dc : ℚ) / (total : ℚ) ≤ 3/10 then (st, 0, false)
    else
      let sorted := decisions.insertionSort maintLE
      let r := rebalLoop sorted st dc total 0
      (r.1, r.2.2.2, (r.2.1 : ℚ) / ((max r.2.2.1 1 : ℕ) : ℚ) > 3/10)

/-- Embedding of `run_periodic_maintenance`: duplicate merge, then per-scope
decision rebalance, then the report. -/
def runPeriodicMaintenance (sm : ScopeManager) (s : Store) :
    AutoMaintenanceReport × Store :=
  let before_rows := filterEntriesByAcl (storeList s 200000) sm none none
  let total_before := before_rows.length
  let d := if total_before > 1 then dedupGroupsPass s (groupRows before_rows)
    else (0, 0, s)
  let merged_groups := d.1
  let duplicate_deleted := d.2.1
  let s1 := d.2.2
  let after_rows := filterEntriesByAcl (storeList s1 200000) sm none none
  let r := (groupRowsByScope after_rows).foldl
    (fun (acc : Store × ℕ × List String × List String) g =>
      let rr := rebalanceScope acc.1 g.1 g.2
      (rr.1, acc.2.1 + rr.2.1,
        if rr.2.1 > 0 then acc.2.2.1 ++ [g.1] else acc.2.2.1,
        if rr.2.2 then acc.2.2.2 ++
          ["scope " ++ g.1 ++
            " still above decision ratio after trimming non-critical decision entries"]
        else acc.2.2.2))
    (s1, 0, [], [])
  let s2 := r.1
  let total_after := (filterEntriesByAcl (storeList s2 200000) sm none none).length
  (⟨100, total_before, total_after, merged_groups, duplicate_deleted,
    r.2.1, r.2.2.1, r.2.2.2⟩, s2)

/-- Embedding of `StoreLayerRequest`. -/
structure StoreLayerRequest where
  text : String
  category : String
  scope : String
  importance : ℚ
  importance_level : String
  tags : List String
  governed : Bool
  use_vector : Bool
  enforce_verify : Bool
  allow_auto_maintenance : Bool
deriving DecidableEq

/-- Embedding of `StoreLayerOutcome`. -/
structure StoreLayerOutcome where
  entry : MemoryEntry
  auto_maintenance : Option AutoMaintenanceReport
deriving DecidableEq

/-- The pre-dedup recall of a governed write (`store_layer_with_rules` lines
3478-3486). -/
def dupQuery (req : StoreLayerRequest) : RecallQuery :=
  { query := compactQuery req.text 10
    query_embedding := none
    scope := some req.scope
    category := some req.category
    limit := 3
    vector_weight := none
    lexical_weight := none }

/-- The post-store verification recall (`store_layer_with_rules` lines
3518-3526). -/
def verifyQuery (entry : MemoryEntry) : RecallQuery :=
  { query := compactQuery entry.text 8
    query_embedding := none
    scope := some entry.scope
    category := some entry.category
    limit := 5
    vector_weight := none
    lexical_weight := none }

/-- The duplicate pre-check of a governed write (`store_layer_with_rules`
lines 3487-3491): the error raised when the top hit of the compact-query
recall scores above `0.93`. -/
def dupError (F : FloatOracle) (now : ℕ) (store : Store)
    (req : StoreLayerRequest) : Option String :=
  if req.governed then
    match (storeRecall F now store (dupQuery req)).head? with
    | some top =>
      if top.score > 93/100 then
        some ("duplicate memory likely exists: " ++ top.entry.id)
      else none
    | none => none
  else none

/-- The optional passage-embedding step of `store_layer_with_rules` (lines
3500-3504); `embedOne` abstracts the remote `embed_one` call. -/
def embedStep (embedOne : String → Except String (List ℚ))
    (req : StoreLayerRequest) : Except String (Option (List ℚ)) :=
  if req.use_vector then
    match embedOne req.text with
    | .ok v => .ok (some v)
    | .error e => .error e
  else .ok none

/-- Embedding of `store_layer_with_rules`.  The triple returned is the
outcome (or error message), the auto-maintenance counter and the storage
state after the call — mutations performed before an error (the id counter of
a rolled-back insert, a triggered maintenance pass) persist, exactly as with
the Rust `&mut` receivers. -/
def storeLayerWithRules (F : FloatOracle)
    (embedOne : String → Except String (List ℚ)) (now : ℕ)
    (sm : ScopeManager) (counter : ℕ) (store : Store)
    (req : StoreLayerRequest) :
    Except String StoreLayerOutcome × ℕ × Store :=
  if !canAccessScope sm req.scope then
    (.error ("scope access denied: " ++ req.scope), counter, store)
  else
    match validateScopeWrite sm req.scope req.tags with
    | some msg => (.error msg, counter, store)
    | none =>
      match (if req.governed then
          validateGovernedInput req.text req.category req.tags
            req.importance_level
        else .ok ()) with
      | .error msg => (.error msg, counter, store)
      | .ok _ =>
        match dupError F now store req with
        | some msg => (.error msg, counter, store)
        | none =>
          if req.governed && req.category == "decision" &&
              decisionRatioInScope store req.scope > 3/10 then
            (.error "decision memory ratio exceeds 30% in current scope",
              counter, store)
          else
          match embedStep embedOne req with
          | .error msg => (.error msg, counter, store)
          | .ok embedding =>
            match storeInsert store
                ⟨req.text, req.category, req.scope, req.importance, req.tags,
                  embedding⟩ now with
            | .error msg => (.error msg, counter, store)
            | .ok (entry, store₁) =>
              if (req.enforce_verify ||
                  (req.governed && req.importance_level == "critical")) &&
                  !(storeRecall F now store₁ (verifyQuery entry)).any
                    (fun r => r.entry.id == entry.id) then
                (.error "post-store recall verification failed", counter,
                  (storeForget store₁ entry.id).2)
              else
                let counter' := counter + 1
                if req.allow_auto_maintenance && counter' % 100 == 0 then
                  let m := runPeriodicMaintenance sm store₁
                  (.ok ⟨entry, some m.1⟩, counter', m.2)
                else
                  (.ok ⟨entry, none⟩, counter', store₁)

/-- Core of `exec_memory_store_dual` after argument resolution (lines
1407-1463): write the technical fact with verify, then the principle decision
with verify, rolling the fact back when the principle write fails. -/
def execMemoryStoreDualCore (F : FloatOracle)
    (embedOne : String → Except String (List ℚ)) (now : ℕ)
    (sm : ScopeManager) (counter : ℕ) (store : Store)
    (scope : String) (tags : List String) (governed use_vector : Bool)
    (tech_text : String) (tech_importance : ℚ) (tech_level : String)
    (principle_payload : Option (String × ℚ × String)) :
    Except String (MemoryEntry × Option MemoryEntry) × ℕ × Store :=
  match storeLayerWithRules F embedOne now sm counter store
      ⟨tech_text, "fact", scope, tech_importance, tech_level, tags,
        governed, use_vector, true, true⟩ with
  | (.error msg, c₁, s₁) => (.error msg, c₁, s₁)
  | (.ok technical, c₁, s₁) =>
    match principle_payload with
    | none => (.ok (technical.entry, none), c₁, s₁)
    | some payload =>
      match storeLayerWithRules F embedOne now sm c₁ s₁
          ⟨payload.1, "decision", scope, payload.2.1, payload.2.2, tags,
            governed, use_vector, true, true⟩ with
      | (.ok principle, c₂, s₂) =>
        (.ok (technical.entry, some principle.entry), c₂, s₂)
      | (.error msg, c₂, s₂) =>
        (.error ("principle layer store failed, rolled back technical layer: "
            ++ msg), c₂, (storeForget s₂ technical.entry.id).2)

/-- Trivial float oracle for concrete runs (no query vectors are involved, so
its value never matters there). -/
def oracle0 : FloatOracle :=
  ⟨fun _ _ => 0, fun _ => 0⟩

/-- Embedding stub for concrete runs with `use_vector = false`. -/
def embed0 : String → Except String (List ℚ) :=
  fun _ => .ok []

/-- A scope manager with the match-all rule, for concrete runs. -/
def smStar : ScopeManager :=
  ⟨"default-agent", "global", ["*"], []⟩

deriving instance DecidableEq for Except

theorem storeForget_id_not_mem (s : Store) (id : String) :
    id ∉ ((storeForget s id).2.entries.map MemoryEntry.id) := by
  intro hmem
  rcases List.mem_map.mp hmem with ⟨e, he, hid⟩
  have := List.of_mem_filter he
  rw [hid] at this
  simp at this

/-- C1 counterexample: a governed decision write into an empty scope passes
the pre-insert ratio gate (ratio 0 ≤ 0.30) and succeeds, after which the
scope's decision ratio is 1.0 > 0.30 — refuting "immediately after any
governed write the scope's decision ratio is ≤ 0.30". -/
theorem c1_counterexample :
    (storeLayerWithRules oracle0 embed0 7 smStar 0 ⟨[], 1⟩
        ⟨"Decision principle: prefer explicit rollback tests", "decision",
          "global", 1/2, "medium", ["project:p", "tool:t", "domain:d"],
          true, false, false, true⟩).1.isOk = true ∧
      decisionRatioInScope
        (storeLayerWithRules oracle0 embed0 7 smStar 0 ⟨[], 1⟩
          ⟨"Decision principle: prefer explicit rollback tests", "decision",
            "global", 1/2, "medium", ["project:p", "tool:t", "domain:d"],
            true, false, false, true⟩).2.2 "global" > 3/10 := by
  constructor
  · with_unfolding_all decide
  · with_unfolding_all decide

/-- C1 (amended): a governed decision write is never accepted when the
scope's pre-insert decision ratio exceeds 0.30 — when the earlier checks
(ACL, cross-scope rule, governance validation, duplicate gate) pass, the
rejection carries exactly the "decision memory ratio exceeds 30%" message —
and consequently every successful governed decision write had pre-insert
ratio ≤ 0.30; the post-insert ratio may however exceed 0.30. -/
theorem c1_decision_ratio_gate_amended :
    ∀ (F : FloatOracle) (embedOne : String → Except String (List ℚ))
      (now : ℕ) (sm : ScopeManager) (counter : ℕ) (store : Store)
      (req : StoreLayerRequest),
      req.governed = true → req.category = "decision" →
      ((decisionRatioInScope store req.scope > 3/10 →
        (storeLayerWithRules F embedOne now sm counter store req).1.isOk = false) ∧
      (canAccessScope sm req.scope = true →
        validateScopeWrite sm req.scope req.tags = none →
        validateGovernedInput req.text req.category req.tags
          req.importance_level = .ok () →
        dupError F now store req = none →
        decisionRatioInScope store req.scope > 3/10 →
        (storeLayerWithRules F embedOne now sm counter store req).1 =
          .error "decision memory ratio exceeds 30% in current scope") ∧
      (∀ out c' s',
        storeLayerWithRules F embedOne now sm counter store req =
          (.ok out, c', s') →
        decisionRatioInScope store req.scope ≤ 3/10)) := by
  intro F embedOne now sm counter store req hg hcat
  have hmain : ∀ out c' s',
      storeLayerWithRules F embedOne now sm counter store req =
        (.ok out, c', s') →
      decisionRatioInScope store req.scope ≤ 3/10 := by
    intro out c' s' heq
    by_contra hgt
    rw [not_le] at hgt
    simp only [storeLayerWithRules] at heq
    split at heq
    · simp at heq
    · split at heq
      · simp at heq
      · split at heq
        · simp at heq
        · split at heq
          · simp at heq
          · split at heq
            · simp at heq
            · next hcond =>
                apply hcond
                simp [hg, hcat]
                exact hgt
  refine ⟨?_, ?_, hmain⟩
  · intro hgt
    cases hres : (storeLayerWithRules F embedOne now sm counter store req).1 with
    | error e => rfl
    | ok out =>
      exfalso
      have heq : storeLayerWithRules F embedOne now sm counter store req =
          (.ok out, (storeLayerWithRules F embedOne now sm counter store req).2.1,
            (storeLayerWithRules F embedOne now sm counter store req).2.2) := by
        rw [← hres]
      exact absurd (hmain out _ _ heq) (not_le.mpr hgt)
  · intro h1 h2 h3 h4 h5
    have hcond : (req.governed && req.category == "decision" &&
        decide (decisionRatioInScope store req.scope > 3/10)) = true := by
      simp [hg, hcat]
      exact h5
    simp only [storeLayerWithRules, h1, Bool.not_true, h2, hg, if_true, h3, h4,
      hcond]
    rw [hg] at hcond
    rw [if_neg (show ¬((false : Bool) = true) by simp), if_pos hcond]

/-- C1 witness: a governed decision write into a scope already at ratio 1.0
(one decision entry) is rejected with the ratio error. -/
theorem c1_witness :
    (storeLayerWithRules oracle0 embed0 9 smStar 0
        ⟨[⟨"mem-1", "zzz qqq", "decision", "global", 1/2, [], 0, none⟩], 2⟩
        ⟨"Decision principle: avoid giant modules", "decision", "global", 1/2,
          "medium", ["project:p", "tool:t", "domain:d"], true, false, false,
          true⟩).1 =
      .error "decision memory ratio exceeds 30% in current scope" :=
  (c1_decision_ratio_gate_amended oracle0 embed0 9 smStar 0
      ⟨[⟨"mem-1", "zzz qqq", "decision", "global", 1/2, [], 0, none⟩], 2⟩
      ⟨"Decision principle: avoid giant modules", "decision", "global", 1/2,
        "medium", ["project:p", "tool:t", "domain:d"], true, false, false,
        true⟩ rfl rfl).2.1
    (by with_unfolding_all decide) (by with_unfolding_all decide)
    (by with_unfolding_all decide) (by with_unfolding_all decide)
    (by with_unfolding_all decide)

/-- The entry appended by a store-layer write (what
`store.store(NewMemoryEntry { .. })` returns inside
`store_layer_with_rules`). -/
def insertedEntry (store : Store) (req : StoreLayerRequest)
    (emb : Option (List ℚ)) (now : ℕ) : MemoryEntry :=
  mkStoredEntry store
    ⟨req.text, req.category, req.scope, req.importance, req.tags, emb⟩ now

/-- The storage state right after that append. -/
def insertedStore (store : Store) (req : StoreLayerRequest)
    (emb : Option (List ℚ)) (now : ℕ) : Store :=
  ⟨store.entries ++ [insertedEntry store req emb now], store.next_id + 1⟩

/-- C5: when the caller requested verification or the write is governed with
importance level critical, and the post-append recall (first 8 compact tokens
of the stored text, restricted to the entry's scope and category) does not
return the new entry's id, the write fails with the verification error and
`forget_by_id` leaves storage without the new entry. -/
theorem c5_verify_rollback :
    ∀ (F : FloatOracle) (embedOne : String → Except String (List ℚ))
      (now : ℕ) (sm : ScopeManager) (counter : ℕ) (store : Store)
      (req : StoreLayerRequest) (emb : Option (List ℚ)),
      canAccessScope sm req.scope = true →
      validateScopeWrite sm req.scope req.tags = none →
      (if req.governed then
        validateGovernedInput req.text req.category req.tags
          req.importance_level
      else .ok ()) = .ok () →
      dupError F now store req = none →
      (req.governed && req.category == "decision" &&
        decide (decisionRatioInScope store req.scope > 3/10)) = false →
      embedStep embedOne req = .ok emb →
      (strTrim req.text == "") = false →
      (req.enforce_verify ||
        (req.governed && req.importance_level == "critical")) = true →
      ((storeRecall F now (insertedStore store req emb now)
          (verifyQuery (insertedEntry store req emb now))).any
        (fun r => r.entry.id == (insertedEntry store req emb now).id)) = false →
      storeLayerWithRules F embedOne now sm counter store req =
        (.error "post-store recall verification failed", counter,
          (storeForget (insertedStore store req emb now)
            (insertedEntry store req emb now).id).2) ∧
      (insertedEntry store req emb now).id ∉
        ((storeLayerWithRules F embedOne now sm counter store req).2.2.entries.map
          MemoryEntry.id) := by
  intro F embedOne now sm counter store req emb h1 h2 h3 h4 hrg h5 htext hven hmiss
  have hmain : storeLayerWithRules F embedOne now sm counter store req =
      (.error "post-store recall verification failed", counter,
        (storeForget (insertedStore store req emb now)
          (insertedEntry store req emb now).id).2) := by
    simp only [insertedEntry, insertedStore] at hmiss
    simp only [storeLayerWithRules, h1, Bool.not_true, h2, h3, h4, hrg, h5,
      storeInsert, htext, Bool.false_eq_true, if_false, hven, hmiss,
      Bool.true_and, Bool.not_false, Bool.and_true, if_true,
      insertedEntry, insertedStore]
  refine ⟨hmain, ?_⟩
  rw [hmain]
  exact storeForget_id_not_mem _ _

theorem c5_witness :
    storeLayerWithRules oracle0 embed0 0 smStar 0 ⟨[], 1⟩
        ⟨"ab cd", "fact", "global", 1/2, "medium", [], false, false, true,
          false⟩ =
      (.error "post-store recall verification failed", 0,
        (storeForget
          (insertedStore ⟨[], 1⟩
            ⟨"ab cd", "fact", "global", 1/2, "medium", [], false, false, true,
              false⟩ none 0)
          (insertedEntry ⟨[], 1⟩
            ⟨"ab cd", "fact", "global", 1/2, "medium", [], false, false, true,
              false⟩ none 0).id).2) :=
  (c5_verify_rollback oracle0 embed0 0 smStar 0 ⟨[], 1⟩
      ⟨"ab cd", "fact", "global", 1/2, "medium", [], false, false, true,
        false⟩ none
      (by with_unfolding_all decide) (by with_unfolding_all decide)
      (by with_unfolding_all decide) (by with_unfolding_all decide)
      (by with_unfolding_all decide) (by with_unfolding_all decide)
      (by with_unfolding_all decide) (by with_unfolding_all decide)
      (by with_unfolding_all decide)).1

theorem listContainsSeg_of_isPrefixOf (pat l : List Char)
    (h : pat.isPrefixOf l = true) : listContainsSeg pat l = true := by
  cases l with
  | nil =>
    have : pat = [] := by
      rw [List.isPrefixOf_iff_prefix] at h
      exact List.prefix_nil.mp h
    subst this
    rfl
  | cons c rest => simp [listContainsSeg, h]

/-- C2: in the dual-layer store, whenever the technical fact write succeeds
and the principle decision write fails, the operation returns an error
prefixed with the rollback message, `forget_by_id` is applied to the fact's
id on the post-principle-attempt storage, the error message contains the
rollback phrase, and the fact id is absent from the final storage. -/
theorem c2_dual_rollback :
    ∀ (F : FloatOracle) (embedOne : String → Except String (List ℚ))
      (now : ℕ) (sm : ScopeManager) (counter : ℕ) (store : Store)
      (scope : String) (tags : List String) (governed use_vector : Bool)
      (tech_text : String) (tech_imp : ℚ) (tech_level : String)
      (payload : String × ℚ × String) (tech : StoreLayerOutcome)
      (c₁ : ℕ) (s₁ : Store) (msg : String) (c₂ : ℕ) (s₂ : Store),
      storeLayerWithRules F embedOne now sm counter store
        ⟨tech_text, "fact", scope, tech_imp, tech_level, tags, governed,
          use_vector, true, true⟩ = (.ok tech, c₁, s₁) →
      storeLayerWithRules F embedOne now sm c₁ s₁
        ⟨payload.1, "decision", scope, payload.2.1, payload.2.2, tags,
          governed, use_vector, true, true⟩ = (.error msg, c₂, s₂) →
      execMemoryStoreDualCore F embedOne now sm counter store scope tags
          governed use_vector tech_text tech_imp tech_level (some payload) =
        (.error ("principle layer store failed, rolled back technical layer: "
            ++ msg), c₂, (storeForget s₂ tech.entry.id).2) ∧
      strContains
        ("principle layer store failed, rolled back technical layer: " ++ msg)
        "principle layer store failed, rolled back technical layer" = true ∧
      tech.entry.id ∉
        ((execMemoryStoreDualCore F embedOne now sm counter store scope tags
            governed use_vector tech_text tech_imp tech_level
            (some payload)).2.2.entries.map MemoryEntry.id) := by
  intro F embedOne now sm counter store scope tags governed use_vector
    tech_text tech_imp tech_level payload tech c₁ s₁ msg c₂ s₂ h1 h2
  have hmain : execMemoryStoreDualCore F embedOne now sm counter store scope
      tags governed use_vector tech_text tech_imp tech_level (some payload) =
      (.error ("principle layer store failed, rolled back technical layer: "
          ++ msg), c₂, (storeForget s₂ tech.entry.id).2) := by
    simp only [execMemoryStoreDualCore, h1, h2]
  refine ⟨hmain, ?_, ?_⟩
  · apply listContainsSeg_of_isPrefixOf
    rw [List.isPrefixOf_iff_prefix]
    show String.toList _ <+: String.toList _
    rw [String.toList, String.toList, String.data_append]
    exact List.prefix_append _ _
  · rw [hmain]
    exact storeForget_id_not_mem _ _

theorem c2_witness :
    execMemoryStoreDualCore oracle0 embed0 9 smStar 0
        ⟨[⟨"mem-1", "zzz qqq", "decision", "global", 1/2, [], 0, none⟩], 2⟩
        "global" ["project:p", "tool:t", "domain:d"] true false
        "Pitfall: alpha. Cause: beta. Fix: gamma. Prevention: delta." (1/2)
        "medium"
        (some ("Decision principle: avoid giant modules", 1/2, "medium")) =
      (.error ("principle layer store failed, rolled back technical layer: "
          ++ "decision memory ratio exceeds 30% in current scope"), 1,
        (storeForget
          ⟨[⟨"mem-1", "zzz qqq", "decision", "global", 1/2, [], 0, none⟩,
            ⟨"mem-2",
              "pitfall: alpha. cause: beta. fix: gamma. prevention: delta.",
              "fact", "global", 1/2, ["project:p", "tool:t", "domain:d"], 9,
              none⟩], 3⟩ "mem-2").2) :=
  (c2_dual_rollback oracle0 embed0 9 smStar 0
      ⟨[⟨"mem-1", "zzz qqq", "decision", "global", 1/2, [], 0, none⟩], 2⟩
      "global" ["project:p", "tool:t", "domain:d"] true false
      "Pitfall: alpha. Cause: beta. Fix: gamma. Prevention: delta." (1/2)
      "medium" ("Decision principle: avoid giant modules", 1/2, "medium")
      ⟨⟨"mem-2",
        "pitfall: alpha. cause: beta. fix: gamma. prevention: delta.",
        "fact", "global", 1/2, ["project:p", "tool:t", "domain:d"], 9,
        none⟩, none⟩ 1
      ⟨[⟨"mem-1", "zzz qqq", "decision", "global", 1/2, [], 0, none⟩,
        ⟨"mem-2",
          "pitfall: alpha. cause: beta. fix: gamma. prevention: delta.",
          "fact", "global", 1/2, ["project:p", "tool:t", "domain:d"], 9,
          none⟩], 3⟩
      "decision memory ratio exceeds 30% in current scope" 1
      ⟨[⟨"mem-1", "zzz qqq", "decision", "global", 1/2, [], 0, none⟩,
        ⟨"mem-2",
          "pitfall: alpha. cause: beta. fix: gamma. prevention: delta.",
          "fact", "global", 1/2, ["project:p", "tool:t", "domain:d"], 9,
          none⟩], 3⟩
      (by with_unfolding_all decide) (by with_unfolding_all decide)).1

/-- The redaction replacement text `"[REDACTED]"` as a char list. -/
def RED : List Char :=
  ['[', 'R', 'E', 'D', 'A', 'C', 'T', 'E', 'D', ']']

theorem red_toList : "[REDACTED]".toList = RED := by with_unfolding_all rfl

/-- The characters `['&', ' ', '"', '\'', ')', '\n']` that terminate a query
parameter value in `redact_query_param`. -/
def isQDelim (c : Char) : Bool :=
  c == '&' || c == ' ' || c == '"' || c == '\'' || c == ')' || c == '\n'

/-- Rust `str::find(marker)` followed by the split around the found
occurrence: returns the text before the first occurrence and the text after
it (the callers only pass non-empty markers). -/
def splitFirst (pat : List Char) : List Char → Option (List Char × List Char)
  | [] => none
  | c :: rest =>
    if pat.isPrefixOf (c :: rest) then some ([], (c :: rest).drop pat.length)
    else
      match splitFirst pat rest with
      | some (b, a) => some (c :: b, a)
      | none => none

theorem splitFirst_eq (pat : List Char) :
    ∀ s b a, splitFirst pat s = some (b, a) → s = b ++ pat ++ a := by
  intro s
  induction s with
  | nil => intro b a h; simp [splitFirst] at h
  | cons c rest ih =>
    intro b a h
    rw [splitFirst] at h
    by_cases hp : pat.isPrefixOf (c :: rest)
    · rw [if_pos hp] at h
      rcases List.isPrefixOf_iff_prefix.mp hp with ⟨t, ht⟩
      have hdrop : (c :: rest).drop pat.length = t := by
        rw [← ht, List.drop_left]
      rw [hdrop] at h
      injection h with h'
      injection h' with hb ha
      subst hb
      subst ha
      rw [List.nil_append, ht]
    · rw [if_neg hp] at h
      cases hsp : splitFirst pat rest with
      | none => rw [hsp] at h; simp at h
      | some p =>
        rcases p with ⟨b', a'⟩
        simp only [hsp] at h
        injection h with h'
        injection h' with hb ha
        subst hb
        subst ha
        have hr := ih b' a' hsp
        rw [List.cons_append, List.cons_append, hr]

/-- Embedding of `redact_query_param`'s rewrite loop (server.rs lines
4758-4771): repeatedly find the marker, replace the value that follows it
(up to the first delimiter) with `[REDACTED]`, and continue after the
inserted text. -/
def redactLoop (marker : List Char) (s : List Char) : List Char :=
  if _hm : marker.isEmpty then s
  else
    match _hsp : splitFirst marker s with
    | none => s
    | some (before, after) =>
      before ++ marker ++ RED ++
        redactLoop marker (after.dropWhile (fun c => !isQDelim c))
termination_by s.length
decreasing_by
  have hs := splitFirst_eq marker s before after _hsp
  have h1 : (after.dropWhile (fun c => !isQDelim c)).length ≤ after.length :=
    dropWhile_length_le _ _
  have h2 : 1 ≤ marker.length := by
    cases marker with
    | nil => simp at _hm
    | cons _ _ => simp
  have h3 : s.length =
      before.length + (marker.length + after.length) := by
    rw [hs]; simp [List.length_append]
  omega

/-- Embedding of `redact_query_param`. -/
def redactQueryParam (input marker : String) : String :=
  ⟨redactLoop marker.toList input.toList⟩

/-- The env var names whose values `sanitize_sensitive` actually replaces. -/
def sanitizeKeys : List String :=
  ["PRX_EMBED_API_KEY", "GEMINI_API_KEY", "JINA_API_KEY"]

/-- One iteration of `sanitize_sensitive`'s env loop: replace the key's
value when it is set and non-empty. -/
def sanitizeStep (env : String → Option String) (acc key : String) : String :=
  match env key with
  | some secret =>
    if secret == "" then acc else strReplace acc secret "[REDACTED]"
  | none => acc

/-- Embedding of `sanitize_sensitive` (server.rs lines 4619-4634), with the
process environment passed explicitly: replace the values of the three
listed env vars, then redact `key=` / `api_key=` / `apikey=` query params. -/
def sanitizeSensitive (env : String → Option String) (input : String) :
    String :=
  redactQueryParam
    (redactQueryParam
      (redactQueryParam (sanitizeKeys.foldl (sanitizeStep env) input) "key=")
      "api_key=")
    "apikey="

theorem listContainsSeg_cons_of (pat : List Char) (d : Char) (t : List Char)
    (h : listContainsSeg pat t = true) :
    listContainsSeg pat (d :: t) = true := by
  show (pat.isPrefixOf (d :: t) || listContainsSeg pat t) = true
  rw [h, Bool.or_true]

theorem listContainsSeg_append_right (pat u t : List Char)
    (h : listContainsSeg pat t = true) :
    listContainsSeg pat (u ++ t) = true := by
  induction u with
  | nil => exact h
  | cons c u ih => exact listContainsSeg_cons_of pat c (u ++ t) ih

theorem listContainsSeg_append_left (pat a b : List Char)
    (h : listContainsSeg pat a = true) :
    listContainsSeg pat (a ++ b) = true := by
  induction a with
  | nil =>
    have hp : pat = [] := by
      cases pat with
      | nil => rfl
      | cons d p => simp [listContainsSeg] at h
    subst hp
    cases b with
    | nil => rfl
    | cons d t =>
      show (List.isPrefixOf [] (d :: t) || listContainsSeg [] t) = true
      rfl
  | cons c a ih =>
    have h' : (pat.isPrefixOf (c :: a) || listContainsSeg pat a) = true := h
    rcases Bool.or_eq_true_iff.mp h' with hp | hc
    · show (pat.isPrefixOf (c :: a ++ b) || listContainsSeg pat (a ++ b)) = true
      have : pat <+: (c :: a) ++ b :=
        (List.isPrefixOf_iff_prefix.mp hp).trans (List.prefix_append _ _)
      rw [List.isPrefixOf_iff_prefix.mpr this, Bool.true_or]
    · exact listContainsSeg_cons_of pat c (a ++ b) (ih hc)

theorem listContainsSeg_append_split (pat a b : List Char)
    (h : listContainsSeg pat (a ++ b) = true) :
    listContainsSeg pat a = true ∨ listContainsSeg pat b = true ∨
      ∃ x y, pat = x ++ y ∧ x ≠ [] ∧ y ≠ [] ∧ x <:+ a ∧ y <+: b := by
  induction a with
  | nil => exact Or.inr (Or.inl h)
  | cons c a ih =>
    have h' : (pat.isPrefixOf (c :: (a ++ b)) ||
        listContainsSeg pat (a ++ b)) = true := h
    rcases Bool.or_eq_true_iff.mp h' with hp | hc
    · have hpp : pat <+: (c :: a) ++ b := List.isPrefixOf_iff_prefix.mp hp
      rcases List.prefix_or_prefix_of_prefix hpp
          (List.prefix_append (c :: a) b) with h1 | h1
      · exact Or.inl (listContainsSeg_of_isPrefixOf _ _
          (List.isPrefixOf_iff_prefix.mpr h1))
      · rcases h1 with ⟨y, hy⟩
        by_cases hy0 : y = []
        · subst hy0
          rw [List.append_nil] at hy
          subst hy
          exact Or.inl (listContainsSeg_of_isPrefixOf _ _
            (List.isPrefixOf_iff_prefix.mpr (List.prefix_refl _)))
        · refine Or.inr (Or.inr ⟨c :: a, y, hy.symm, by simp, hy0,
            List.suffix_refl _, ?_⟩)
          have hcy : (c :: a) ++ y <+: (c :: a) ++ b := by
            rw [hy]; exact hpp
          exact (List.prefix_append_right_inj _).mp hcy
    · rcases ih hc with h1 | h1 | ⟨x, y, hxy, hx0, hy0, hxa, hyb⟩
      · exact Or.inl (listContainsSeg_cons_of pat c a h1)
      · exact Or.inr (Or.inl h1)
      · exact Or.inr (Or.inr ⟨x, y, hxy, hx0, hy0,
          hxa.trans (List.suffix_cons c a), hyb⟩)

theorem mem_of_suffix_red (r : List Char) (hr : r <:+ RED) (h0 : r ≠ []) :
    ']' ∈ r := by
  rcases hr with ⟨u, hu⟩
  have key : ∀ (l : List Char) (h : l ≠ []), l = RED → l.getLast h = ']' := by
    intro l h hl
    subst hl
    rfl
  have h4 : (u ++ r).getLast (List.append_ne_nil_of_right_ne_nil u h0) = ']' :=
    key (u ++ r) _ hu
  rw [List.getLast_append' u r h0] at h4
  rw [← h4]
  exact List.getLast_mem h0

theorem head_of_prefix_red (y X : List Char) (hy : y <+: RED ++ X)
    (h0 : y ≠ []) : '[' ∈ y := by
  cases y with
  | nil => exact absurd rfl h0
  | cons d y' =>
    rcases hy with ⟨t, ht⟩
    have hh : ((d :: y') ++ t).head? = (RED ++ X).head? := by rw [ht]
    simp only [List.cons_append, List.head?_cons, RED] at hh
    injection hh with hd
    rw [hd]
    exact List.mem_cons_self _ _

theorem prefix_through_replaceAll (other : List Char) :
    ∀ (s q : List Char), q ≠ [] → '[' ∉ q →
      q.isPrefixOf (replaceAll s other RED) = true →
      q.isPrefixOf s = true := by
  intro s
  induction s with
  | nil =>
    intro q h0 hnb h
    have hnil : replaceAll [] other RED = [] := by
      rw [replaceAll]
      split <;> rfl
    rw [hnil] at h
    rw [List.isPrefixOf_iff_prefix] at h
    exact absurd (List.prefix_nil.mp h) h0
  | cons c rest ih =>
    intro q h0 hnb h
    rw [replaceAll] at h
    by_cases he : other.isEmpty
    · rw [if_pos he] at h; exact h
    · rw [if_neg he] at h
      by_cases hp : other.isPrefixOf (c :: rest)
      · rw [if_pos hp] at h
        have : '[' ∈ q :=
          head_of_prefix_red q _ (List.isPrefixOf_iff_prefix.mp h) h0
        exact absurd this hnb
      · rw [if_neg hp] at h
        cases q with
        | nil => exact absurd rfl h0
        | cons d q' =>
          rw [List.isPrefixOf_iff_prefix, List.cons_prefix_cons] at h
          rcases h with ⟨hd, hq'⟩
          subst hd
          by_cases hq0 : q' = []
          · subst hq0
            rw [List.isPrefixOf_iff_prefix, List.cons_prefix_cons]
            exact ⟨rfl, List.nil_prefix⟩
          · have hnb' : '[' ∉ q' := fun hm => hnb (List.mem_cons_of_mem _ hm)
            have hrec := ih q' hq0 hnb'
              (List.isPrefixOf_iff_prefix.mpr hq')
            rw [List.isPrefixOf_iff_prefix, List.cons_prefix_cons]
            exact ⟨rfl, List.isPrefixOf_iff_prefix.mp hrec⟩

theorem contains_replaceAll_self (pat : List Char)
    (hne : pat ≠ []) (hnb : '[' ∉ pat) (hcb : ']' ∉ pat)
    (hnr : listContainsSeg pat RED = false) :
    ∀ (n : ℕ) (s : List Char), s.length ≤ n →
      listContainsSeg pat (replaceAll s pat RED) = false := by
  intro n
  induction n with
  | zero =>
    intro s hs
    have hs0 : s = [] := List.length_eq_zero.mp (Nat.le_zero.mp hs)
    subst hs0
    have hnil : replaceAll [] pat RED = [] := by
      rw [replaceAll]; split <;> rfl
    rw [hnil]
    cases pat with
    | nil => exact absurd rfl hne
    | cons d p => rfl
  | succ n ih =>
    intro s hs
    cases s with
    | nil =>
      have hnil : replaceAll [] pat RED = [] := by
        rw [replaceAll]; split <;> rfl
      rw [hnil]
      cases pat with
      | nil => exact absurd rfl hne
      | cons d p => rfl
    | cons c rest =>
      have he : pat.isEmpty = false := by
        cases pat with
        | nil => exact absurd rfl hne
        | cons d p => rfl
      rw [replaceAll, he]
      rw [if_neg (show ¬(false = true) by simp)]
      by_cases hp : pat.isPrefixOf (c :: rest)
      · rw [if_pos hp]
        by_contra hcon
        rw [Bool.not_eq_false] at hcon
        have hlen : ((c :: rest).drop pat.length).length ≤ n := by
          have h1 : 1 ≤ pat.length := by
            cases pat with
            | nil => exact absurd rfl hne
            | cons d p => simp
          have h2 := List.length_drop pat.length (c :: rest)
          simp only [List.length_cons] at h2 hs
          omega
        rcases listContainsSeg_append_split pat RED _ hcon with
          h1 | h1 | ⟨x, y, hxy, hx0, _, hxr, _⟩
        · rw [hnr] at h1; exact absurd h1 (by simp)
        · rw [ih _ hlen] at h1; exact absurd h1 (by simp)
        · have : ']' ∈ pat := by
            rw [hxy]
            exact List.mem_append_left _ (mem_of_suffix_red x hxr hx0)
          exact absurd this hcb
      · rw [if_neg hp]
        have hrest : listContainsSeg pat (replaceAll rest pat RED) = false := by
          apply ih
          simp only [List.length_cons] at hs
          omega
        show (pat.isPrefixOf (c :: replaceAll rest pat RED) ||
          listContainsSeg pat (replaceAll rest pat RED)) = false
        rw [hrest, Bool.or_false]
        by_contra hcon
        rw [Bool.not_eq_false] at hcon
        cases pat with
        | nil => exact absurd rfl hne
        | cons d p =>
          rw [List.isPrefixOf_iff_prefix, List.cons_prefix_cons] at hcon
          rcases hcon with ⟨hd, hq⟩
          subst hd
          by_cases hq0 : p = []
          · subst hq0
            apply hp
            rw [List.isPrefixOf_iff_prefix, List.cons_prefix_cons]
            exact ⟨rfl, List.nil_prefix⟩
          · have hnb' : '[' ∉ p := fun hm => hnb (List.mem_cons_of_mem _ hm)
            have := prefix_through_replaceAll (d :: p) rest p hq0 hnb'
              (List.isPrefixOf_iff_prefix.mpr hq)
            apply hp
            rw [List.isPrefixOf_iff_prefix, List.cons_prefix_cons]
            exact ⟨rfl, List.isPrefixOf_iff_prefix.mp this⟩

theorem contains_replaceAll_other (pat other : List Char)
    (hne : pat ≠ []) (hnb : '[' ∉ pat) (hcb : ']' ∉ pat)
    (hnr : listContainsSeg pat RED = false) :
    ∀ (n : ℕ) (s : List Char), s.length ≤ n →
      listContainsSeg pat s = false →
      listContainsSeg pat (replaceAll s other RED) = false := by
  intro n
  induction n with
  | zero =>
    intro s hs h
    have hs0 : s = [] := List.length_eq_zero.mp (Nat.le_zero.mp hs)
    subst hs0
    have hnil : replaceAll [] other RED = [] := by
      rw [replaceAll]; split <;> rfl
    rw [hnil]
    exact h
  | succ n ih =>
    intro s hs h
    cases s with
    | nil =>
      have hnil : replaceAll [] other RED = [] := by
        rw [replaceAll]; split <;> rfl
      rw [hnil]
      exact h
    | cons c rest =>
      rw [replaceAll]
      by_cases he : other.isEmpty
      · rw [if_pos he]; exact h
      · rw [if_neg he]
        have hrest0 : listContainsSeg pat rest = false := by
          have h' : (pat.isPrefixOf (c :: rest) ||
              listContainsSeg pat rest) = false := h
          exact (Bool.or_eq_false_iff.mp h').2
        by_cases hp : other.isPrefixOf (c :: rest)
        · rw [if_pos hp]
          by_contra hcon
          rw [Bool.not_eq_false] at hcon
          have hdrop0 : listContainsSeg pat ((c :: rest).drop other.length)
              = false := by
            by_contra hcon'
            rw [Bool.not_eq_false] at hcon'
            have := listContainsSeg_append_right pat
              ((c :: rest).take other.length) _ hcon'
            rw [List.take_append_drop] at this
            rw [h] at this
            exact absurd this (by simp)
          have hlen : ((c :: rest).drop other.length).length ≤ n := by
            have h1 : 1 ≤ other.length := by
              cases other with
              | nil => simp at he
              | cons d p => simp
            have h2 := List.length_drop other.length (c :: rest)
            simp only [List.length_cons] at h2 hs
            omega
          rcases listContainsSeg_append_split pat RED _ hcon with
            h1 | h1 | ⟨x, y, hxy, hx0, _, hxr, _⟩
          · rw [hnr] at h1; exact absurd h1 (by simp)
          · rw [ih _ hlen hdrop0] at h1; exact absurd h1 (by simp)
          · have : ']' ∈ pat := by
              rw [hxy]
              exact List.mem_append_left _ (mem_of_suffix_red x hxr hx0)
            exact absurd this hcb
        · rw [if_neg hp]
          have hrest : listContainsSeg pat (replaceAll rest other RED)
              = false := by
            apply ih _ _ hrest0
            simp only [List.length_cons] at hs
            omega
          show (pat.isPrefixOf (c :: replaceAll rest other RED) ||
            listContainsSeg pat (replaceAll rest other RED)) = false
          rw [hrest, Bool.or_false]
          by_contra hcon
          rw [Bool.not_eq_false] at hcon
          cases pat with
          | nil => exact absurd rfl hne
          | cons d p =>
            rw [List.isPrefixOf_iff_prefix, List.cons_prefix_cons] at hcon
            rcases hcon with ⟨hd, hq⟩
            subst hd
            have hpre : (d :: p).isPrefixOf (d :: rest) = true := by
              by_cases hq0 : p = []
              · subst hq0
                rw [List.isPrefixOf_iff_prefix, List.cons_prefix_cons]
                exact ⟨rfl, List.nil_prefix⟩
              · have hnb' : '[' ∉ p :=
                  fun hm => hnb (List.mem_cons_of_mem _ hm)
                have := prefix_through_replaceAll other rest p hq0 hnb'
                  (List.isPrefixOf_iff_prefix.mpr hq)
                rw [List.isPrefixOf_iff_prefix, List.cons_prefix_cons]
                exact ⟨rfl, List.isPrefixOf_iff_prefix.mp this⟩
            have : listContainsSeg (d :: p) (d :: rest) = true :=
              listContainsSeg_of_isPrefixOf _ _ hpre
            rw [h] at this
            exact absurd this (by simp)

theorem contains_redactLoop (pat marker : List Char)
    (hnb : '[' ∉ pat) (hcb : ']' ∉ pat)
    (hnr : listContainsSeg pat RED = false) :
    ∀ (n : ℕ) (s : List Char), s.length ≤ n →
      listContainsSeg pat s = false →
      listContainsSeg pat (redactLoop marker s) = false := by
  intro n
  induction n with
  | zero =>
    intro s hs h
    have hs0 : s = [] := List.length_eq_zero.mp (Nat.le_zero.mp hs)
    subst hs0
    rw [redactLoop]
    split
    · exact h
    · split
      · exact h
      · next before after heq => simp [splitFirst] at heq
  | succ n ih =>
    intro s hs h
    rw [redactLoop]
    split
    · exact h
    · next hm =>
      split
      · exact h
      · next before after heq =>
        have hseq := splitFirst_eq marker s before after heq
        have hm1 : 1 ≤ marker.length := by
          cases marker with
          | nil => simp at hm
          | cons _ _ => simp
        have hlen : (after.dropWhile (fun c => !isQDelim c)).length ≤ n := by
          have h1 := dropWhile_length_le (fun c => !isQDelim c) after
          have h2 : s.length =
              before.length + (marker.length + after.length) := by
            rw [hseq]; simp [List.length_append]
          omega
        have hcrest : listContainsSeg pat
            (after.dropWhile (fun c => !isQDelim c)) = false := by
          by_contra hcon
          rw [Bool.not_eq_false] at hcon
          have c1 : listContainsSeg pat after = true := by
            have := listContainsSeg_append_right pat
              (after.takeWhile (fun c => !isQDelim c)) _ hcon
            rw [List.takeWhile_append_dropWhile] at this
            exact this
          have c2 : listContainsSeg pat s = true := by
            rw [hseq]
            exact listContainsSeg_append_right pat (before ++ marker) after c1
          rw [h] at c2
          exact absurd c2 (by simp)
        by_contra hcon
        rw [Bool.not_eq_false] at hcon
        have hassoc : before ++ marker ++ RED ++
            redactLoop marker (after.dropWhile (fun c => !isQDelim c)) =
            (before ++ marker) ++ (RED ++
              redactLoop marker (after.dropWhile (fun c => !isQDelim c))) := by
          simp [List.append_assoc]
        rw [hassoc] at hcon
        rcases listContainsSeg_append_split pat _ _ hcon with
          h1 | h1 | ⟨x, y, hxy, hx0, hy0, hxr, hyb⟩
        · have : listContainsSeg pat s = true := by
            rw [hseq]
            exact listContainsSeg_append_left pat (before ++ marker) after h1
          rw [h] at this
          exact absurd this (by simp)
        · rcases listContainsSeg_append_split pat _ _ h1 with
            h2 | h2 | ⟨x, y, hxy, hx0, _, hxr, _⟩
          · rw [hnr] at h2; exact absurd h2 (by simp)
          · rw [ih _ hlen hcrest] at h2; exact absurd h2 (by simp)
          · have : ']' ∈ pat := by
              rw [hxy]
              exact List.mem_append_left _ (mem_of_suffix_red x hxr hx0)
            exact absurd this hcb
        · have : '[' ∈ pat := by
            rw [hxy]
            exact List.mem_append_right _ (head_of_prefix_red y _ hyb hy0)
          exact absurd this hnb

theorem contains_foldl_sanitize_keep (env : String → Option String)
    (σl : List Char) (hne : σl ≠ []) (hnb : '[' ∉ σl) (hcb : ']' ∉ σl)
    (hnr : listContainsSeg σl RED = false) :
    ∀ (keys : List String) (acc : String),
      listContainsSeg σl acc.toList = false →
      listContainsSeg σl ((keys.foldl (sanitizeStep env) acc)).toList
        = false := by
  intro keys
  induction keys with
  | nil => intro acc h; exact h
  | cons k t ih =>
    intro acc h
    show listContainsSeg σl
      ((t.foldl (sanitizeStep env) (sanitizeStep env acc k))).toList = false
    apply ih
    cases heq : env k with
    | none => simp only [sanitizeStep, heq]; exact h
    | some secret =>
      simp only [sanitizeStep, heq]
      by_cases hsec : (secret == "") = true
      · rw [if_pos hsec]; exact h
      · rw [if_neg hsec]
        show listContainsSeg σl
          (replaceAll acc.toList secret.toList "[REDACTED]".toList) = false
        rw [red_toList]
        exact contains_replaceAll_other σl secret.toList hne hnb hcb hnr
          acc.toList.length acc.toList (le_refl _) h

theorem contains_foldl_sanitize_hit (env : String → Option String)
    (σ : String) (hne : σ.toList ≠ []) (hnb : '[' ∉ σ.toList)
    (hcb : ']' ∉ σ.toList) (hnr : listContainsSeg σ.toList RED = false) :
    ∀ (keys : List String) (key acc : String), key ∈ keys →
      env key = some σ →
      listContainsSeg σ.toList ((keys.foldl (sanitizeStep env) acc)).toList
        = false := by
  intro keys
  induction keys with
  | nil => intro key acc hk _; exact absurd hk (List.not_mem_nil _)
  | cons k t ih =>
    intro key acc hk hσ
    show listContainsSeg σ.toList
      ((t.foldl (sanitizeStep env) (sanitizeStep env acc k))).toList = false
    rcases List.mem_cons.mp hk with hkk | hkt
    · subst hkk
      apply contains_foldl_sanitize_keep env σ.toList hne hnb hcb hnr
      simp only [sanitizeStep, hσ]
      have hb : (σ == "") = false := by
        rw [beq_eq_false_iff_ne]
        intro hcon
        subst hcon
        exact hne rfl
      rw [hb, if_neg (show ¬((false : Bool) = true) by simp)]
      show listContainsSeg σ.toList
        (replaceAll acc.toList σ.toList "[REDACTED]".toList) = false
      rw [red_toList]
      exact contains_replaceAll_self σ.toList hne hnb hcb hnr
        acc.toList.length acc.toList (le_refl _)
    · exact ih key _ hkt hσ

theorem dropWhile_all_append (p : Char → Bool) (v r : List Char)
    (hv : ∀ c ∈ v, p c = true)
    (hr : r = [] ∨ ∃ d r', r = d :: r' ∧ p d = false) :
    (v ++ r).dropWhile p = r := by
  induction v with
  | nil =>
    rcases hr with h0 | ⟨d, r', hdr, hpd⟩
    · subst h0; rfl
    · subst hdr
      show List.dropWhile p (d :: r') = d :: r'
      rw [List.dropWhile_cons, hpd]
      simp
  | cons c v ih =>
    show List.dropWhile p (c :: (v ++ r)) = r
    rw [List.dropWhile_cons, hv c (List.mem_cons_self _ _)]
    simp only [if_true]
    exact ih (fun x hx => hv x (List.mem_cons_of_mem _ hx))

/-- C9 counterexample: the rerank providers read the API keys
`PRX_RERANK_API_KEY` / `COHERE_API_KEY` / `PINECONE_API_KEY` from the
environment (server.rs lines 4401-4446), but `sanitize_sensitive` only
replaces the values of `PRX_EMBED_API_KEY`, `GEMINI_API_KEY` and
`JINA_API_KEY`: with `PRX_RERANK_API_KEY` set in the environment, its secret
value survives sanitisation verbatim — refuting "every API-key secret value
present in the environment variables is replaced". -/
theorem c9_counterexample :
    strContains
      (sanitizeSensitive
        (fun k => if k == "PRX_RERANK_API_KEY" then
          some "sk-rerank-secret-xyz" else none)
        "Provider API error (status 401): bad token sk-rerank-secret-xyz")
      "sk-rerank-secret-xyz" = true := by
  with_unfolding_all decide

/-- C9 (amended): (i) for every error message, the value of each env var
among `PRX_EMBED_API_KEY`, `GEMINI_API_KEY`, `JINA_API_KEY` that is set and
non-empty no longer occurs in the sanitised output (for secrets that contain
no square bracket and are not substrings of `[REDACTED]`); (ii) each
`key=` / `api_key=` / `apikey=` query-param value (a delimiter-free value
followed by a delimiter or end of string) is replaced by `[REDACTED]`. -/
theorem c9_redaction_amended :
    (∀ (env : String → Option String) (input key σ : String),
      key ∈ sanitizeKeys → env key = some σ → σ.toList ≠ [] →
      '[' ∉ σ.toList → ']' ∉ σ.toList →
      listContainsSeg σ.toList RED = false →
      strContains (sanitizeSensitive env input) σ = false) ∧
    (∀ (m : String), m ∈ ["key=", "api_key=", "apikey="] →
      ∀ (a v r : List Char),
        splitFirst m.toList (a ++ m.toList ++ v ++ r) = some (a, v ++ r) →
        (∀ c ∈ v, isQDelim c = false) →
        (r = [] ∨ ∃ d r', r = d :: r' ∧ isQDelim d = true) →
        redactLoop m.toList (a ++ m.toList ++ v ++ r) =
          a ++ m.toList ++ RED ++ redactLoop m.toList r) := by
  constructor
  · intro env input key σ hkey hσ h0 hnb hcb hnr
    show listContainsSeg σ.toList
      (redactLoop "apikey=".toList
        (redactLoop "api_key=".toList
          (redactLoop "key=".toList
            ((sanitizeKeys.foldl (sanitizeStep env) input)).toList))) = false
    apply contains_redactLoop σ.toList _ hnb hcb hnr _ _ (le_refl _)
    apply contains_redactLoop σ.toList _ hnb hcb hnr _ _ (le_refl _)
    apply contains_redactLoop σ.toList _ hnb hcb hnr _ _ (le_refl _)
    exact contains_foldl_sanitize_hit env σ h0 hnb hcb hnr
      sanitizeKeys key input hkey hσ
  · intro m hm a v r hsp hv hr
    have hm0 : m.toList.isEmpty = false := by
      simp only [List.mem_cons, List.not_mem_nil, or_false] at hm
      rcases hm with h | h | h
      all_goals subst h
      all_goals with_unfolding_all rfl
    rw [redactLoop, dif_neg (by rw [hm0]; simp)]
    split
    · next heq => rw [hsp] at heq; cases heq
    · next before after heq =>
      rw [hsp] at heq
      injection heq with heq'
      injection heq' with hb ha
      subst hb
      subst ha
      congr 1
      congr 1
      exact dropWhile_all_append (fun c => !isQDelim c) v r
        (fun c hc => by show (!isQDelim c) = true; rw [hv c hc]; rfl)
        (by
          rcases hr with h0 | ⟨d, r', hdr, hpd⟩
          · exact Or.inl h0
          · exact Or.inr ⟨d, r', hdr,
              by show (!isQDelim d) = false; rw [hpd]; rfl⟩)

/-- C9 witness: a `GEMINI_API_KEY` secret set in the environment is removed
from a network error message, and a `key=` query-param value is replaced. -/
theorem c9_witness :
    strContains
      (sanitizeSensitive
        (fun k => if k == "GEMINI_API_KEY" then some "topsecret123" else none)
        "Network error: 401 for token topsecret123 on host")
      "topsecret123" = false ∧
    redactLoop "key=".toList
        ("GET /v1?".toList ++ "key=".toList ++ "abcd".toList ++
          "&x=1".toList) =
      "GET /v1?".toList ++ "key=".toList ++ RED ++
        redactLoop "key=".toList "&x=1".toList :=
  ⟨c9_redaction_amended.1
    (fun k => if k == "GEMINI_API_KEY" then some "topsecret123" else none)
    "Network error: 401 for token topsecret123 on host"
    "GEMINI_API_KEY" "topsecret123"
    (by with_unfolding_all decide) (by with_unfolding_all decide)
    (by with_unfolding_all decide) (by with_unfolding_all decide)
    (by with_unfolding_all decide) (by with_unfolding_all decide),
   c9_redaction_amended.2 "key=" (by with_unfolding_all decide)
    "GET /v1?".toList "abcd".toList "&x=1".toList
    (by with_unfolding_all decide) (by with_unfolding_all decide)
    (Or.inr ⟨'&', "x=1".toList, by with_unfolding_all decide,
      by with_unfolding_all decide⟩)⟩

end PrxMemory
